import Mathlib

/-!
# Reverse-complement (benchmarks game), `reverse-complement.cc`

A shallow embedding of the program and proofs about it.

Conventions of the embedding:

* a byte is a `Nat` below 256; a `char` read from a buffer is that byte seen
  through `toChar` (two's complement, `char` is signed on x86);
* `size_t` values are `Nat`s, wrapped explicitly with `% 2 ^ 64` where the
  source can wrap;
* a `char` buffer is a function from addresses (`Int`, relative to the start
  of the buffer) to bytes, a pointer into it is an `Int`;
* the file behind the descriptor `fd` is the list of its bytes;
* what is written to `STDOUT_FILENO` is the list of bytes written, in order;
* reading `map256` outside its 256 entries, a failed `assert` and an exhausted
  loop bound are `none`; accesses to the `char` buffers are not checked
  against the size of the buffer.
-/

namespace ReverseComplement

set_option maxRecDepth 100000

/-! ## Tables -/

/-- The function `swmap`: the complement of one byte. -/
def swmap (c : Nat) : Nat :=
  match c with
  | 65 | 97 => 84    -- 'A' | 'a' => 'T'
  | 67 | 99 => 71    -- 'C' | 'c' => 'G'
  | 71 | 103 => 67   -- 'G' | 'g' => 'C'
  | 84 | 116 => 65   -- 'T' | 't' => 'A'
  | 85 | 117 => 65   -- 'U' | 'u' => 'A'
  | 77 | 109 => 75   -- 'M' | 'm' => 'K'
  | 82 | 114 => 89   -- 'R' | 'r' => 'Y'
  | 87 | 119 => 87   -- 'W' | 'w' => 'W'
  | 83 | 115 => 83   -- 'S' | 's' => 'S'
  | 89 | 121 => 82   -- 'Y' | 'y' => 'R'
  | 75 | 107 => 77   -- 'K' | 'k' => 'M'
  | 86 | 118 => 66   -- 'V' | 'v' => 'B'
  | 72 | 104 => 68   -- 'H' | 'h' => 'D'
  | 68 | 100 => 72   -- 'D' | 'd' => 'H'
  | 66 | 98 => 86    -- 'B' | 'b' => 'V'
  | 78 | 110 => 78   -- 'N' | 'n' => 'N'
  | _ => 95          -- '_'

/-- Entry `it` of the table `map` (65536 entries of `uint16_t`):
`hi = it >> 8`, `lo = it`, both cut to `uint8_t`, and
`map[it] = (swmap(lo) << 8) | swmap(hi)`. -/
def map (it : Nat) : Nat :=
  let hi := (it >>> 8) % 256
  let lo := it % 256
  ((swmap lo <<< 8) ||| swmap hi) % 65536

/-- The table `map256`: 256 entries, entry `it` is `swmap(it)`. -/
def map256 : List Nat :=
  (List.range 256).map fun it => swmap (it % 256)

/-- The value of a byte read as a (signed) `char`. -/
def toChar (b : Nat) : Int :=
  if b % 256 < 128 then ((b % 256 : Nat) : Int) else ((b % 256 : Nat) : Int) - 256

/-- The lookup `map256[c]` for a `char` `c`: the index is converted to `size_t`;
an index outside the table is undefined behaviour. -/
def map256_at (c : Int) : Option Nat :=
  map256[(c % 2 ^ 64).toNat]?

/-- The struct `range`. -/
structure range where
  begin : Nat
  size : Nat
  deriving DecidableEq, Repr

/-! ## Memory -/

/-- A `char` buffer: address (relative to its start) to byte. -/
abbrev Mem := Int → Nat

/-- Store one byte. -/
def Mem.store (m : Mem) (p : Int) (v : Nat) : Mem :=
  fun j => if j = p then v else m j

/-- The bytes `m[0 .. n)`, as `write(STDOUT_FILENO, m, n)` sends them. -/
def Mem.read (m : Mem) (n : Nat) : List Nat :=
  (List.range n).map fun (i : Nat) => m (i : Int)

/-- The call `pread(fd, buf, count, offset)`: the bytes of the file from
`offset`, at most `count` of them and no further than the end of the file,
are copied to the start of `buf`. An `offset` that is negative as `off_t`
reads nothing. -/
def pread (file : List Nat) (buf : Mem) (count offset : Nat) : Mem :=
  if 2 ^ 63 ≤ offset then buf
  else fun i =>
    if 0 ≤ i ∧ i < (count : Int) ∧ offset + i.toNat < file.length then
      file.getD (offset + i.toNat) 0
    else buf i

/-! ## The 16-byte step -/

/-- A 128-bit register: lane (0 to 15) to byte. -/
abbrev Reg := Nat → Nat

def simd_width : Int := 16

/-- Intrinsic `_mm_set_epi8`: the arguments are the lanes 15 down to 0. -/
def mm_set_epi8 (e15 e14 e13 e12 e11 e10 e9 e8 e7 e6 e5 e4 e3 e2 e1 e0 : Nat) : Reg :=
  fun i => [e0, e1, e2, e3, e4, e5, e6, e7, e8, e9, e10, e11, e12, e13, e14, e15].getD i 0

/-- Intrinsic `_mm_loadu_si128`: lane `i` is the byte at `p + i`. -/
def mm_loadu_si128 (m : Mem) (p : Int) : Reg :=
  fun i => m (p + i) % 256

/-- Intrinsic `_mm_storeu_si128`: the byte at `p + i` becomes lane `i`. -/
def mm_storeu_si128 (m : Mem) (p : Int) (r : Reg) : Mem :=
  fun j => if p ≤ j ∧ j < p + 16 then r (j - p).toNat else m j

/-- Intrinsic `_mm_shuffle_epi8`: lane `i` is 0 when the top bit of `b i` is
set, and lane `b i & 15` of `a` otherwise. -/
def mm_shuffle_epi8 (a b : Reg) : Reg :=
  fun i => if b i &&& 0x80 ≠ 0 then 0 else a (b i &&& 0x0f)

/-- Intrinsic `_mm_and_si128`. -/
def mm_and_si128 (a b : Reg) : Reg := fun i => a i &&& b i

/-- Intrinsic `_mm_or_si128`. -/
def mm_or_si128 (a b : Reg) : Reg := fun i => a i ||| b i

/-- Intrinsic `_mm_cmplt_epi8`: signed comparison per lane, all ones when less. -/
def mm_cmplt_epi8 (a b : Reg) : Reg :=
  fun i => if toChar (a i) < toChar (b i) then 0xff else 0

/-- Intrinsic `_mm_sub_epi8`: wrapping subtraction per lane. -/
def mm_sub_epi8 (a b : Reg) : Reg := fun i => (a i + 256 - b i % 256) % 256

/-- The lambda `packed`: the byte `c` in all 16 lanes. -/
def packed (c : Nat) : Reg := mm_set_epi8 c c c c c c c c c c c c c c c c

/-- The register `res` of `reverse_complement_sse` for the 16 bytes at `in_`. -/
def reverse_complement_reg (buf : Mem) (in_ : Int) : Reg :=
  let input := mm_loadu_si128 buf in_
  let v := mm_shuffle_epi8 input (mm_set_epi8 0 1 2 3 4 5 6 7 8 9 10 11 12 13 14 15)
  let v := mm_and_si128 v (packed 0x1f)
  -- lookup for all v elements < 16
  let lt16_mask := mm_cmplt_epi8 v (packed 16)
  let lt16_els := mm_and_si128 v lt16_mask
  let lt16_lut := mm_set_epi8 0 78 75 0 77 10 0 68 67 0 0 72 71 86 84 0
  let lt16_vals := mm_shuffle_epi8 lt16_lut lt16_els
  -- lookup for all elements > 16
  let g16_els := mm_sub_epi8 v (packed 16)
  let g16_lut := mm_set_epi8 0 0 0 0 0 0 82 0 87 66 65 65 83 89 0 0
  let g16_vals := mm_shuffle_epi8 g16_lut g16_els
  mm_or_si128 lt16_vals g16_vals

/-- The register `v` of `reverse_complement_sse` once reversed and masked
with `0x1f`. -/
def masked_reg (buf : Mem) (in_ : Int) : Reg :=
  let input := mm_loadu_si128 buf in_
  let v := mm_shuffle_epi8 input (mm_set_epi8 0 1 2 3 4 5 6 7 8 9 10 11 12 13 14 15)
  mm_and_si128 v (packed 0x1f)

/-- The register `lt16_vals` of `reverse_complement_sse`, from the masked `v`. -/
def lt16_vals (v : Reg) : Reg :=
  let lt16_mask := mm_cmplt_epi8 v (packed 16)
  let lt16_els := mm_and_si128 v lt16_mask
  let lt16_lut := mm_set_epi8 0 78 75 0 77 10 0 68 67 0 0 72 71 86 84 0
  mm_shuffle_epi8 lt16_lut lt16_els

/-- The register `g16_vals` of `reverse_complement_sse`, from the masked `v`. -/
def g16_vals (v : Reg) : Reg :=
  let g16_els := mm_sub_epi8 v (packed 16)
  let g16_lut := mm_set_epi8 0 0 0 0 0 0 82 0 87 66 65 65 83 89 0 0
  mm_shuffle_epi8 g16_lut g16_els

/-- What `reverse_complement_sse` makes of the byte `c`: a lane of `res` when
all 16 bytes loaded are `c`. -/
def sse_lane (c : Nat) : Nat := reverse_complement_reg (fun _ => c) 0 0

/-- The function `reverse_complement_sse(in, out)`: the buffer `out` points
into, after the call. -/
def reverse_complement_sse (buf : Mem) (in_ : Int) (outbuf : Mem) (out : Int) : Mem :=
  mm_storeu_si128 outbuf out (reverse_complement_reg buf in_)

/-! ## One line: `replace60_simd` -/

/-- The pointers `in`, `out` of `replace60_simd` and the buffer `out` points into. -/
structure Cursor where
  in_ : Int
  out : Int
  outbuf : Mem

/-- First loop of `fast_op`: `n` steps of 16 bytes. -/
def fast_op_simd (buf : Mem) : Nat → Cursor → Cursor
  | 0, s => s
  | n + 1, s =>
    let in_ := s.in_ - simd_width
    fast_op_simd buf n
      { in_ := in_, out := s.out + simd_width,
        outbuf := reverse_complement_sse buf in_ s.outbuf s.out }

/-- Second loop of `fast_op`: `n` steps of 2 bytes through the table `map`;
`from` is read and `tmp` is stored little-endian. -/
def fast_op_pairs (buf : Mem) : Nat → Cursor → Cursor
  | 0, s => s
  | n + 1, s =>
    let in_ := s.in_ - 2
    let from_ := buf in_ % 256 + 256 * (buf (in_ + 1) % 256)
    let tmp := map from_
    fast_op_pairs buf n
      { in_ := in_, out := s.out + 2,
        outbuf := (s.outbuf.store s.out (tmp % 256)).store (s.out + 1) (tmp / 256) }

/-- The lambda `fast_op(working_set)`. -/
def fast_op (buf : Mem) (working_set : Int) (s : Cursor) : Cursor :=
  let n := working_set.tdiv (simd_width.tdiv 2)
  let s := fast_op_simd buf n.toNat s
  fast_op_pairs buf (working_set - (simd_width.tdiv 2) * n).toNat s

/-- The statement `*out++ = map256[*(--in)]`. -/
def scalar_op (buf : Mem) (s : Cursor) : Option Cursor := do
  let in_ := s.in_ - 1
  let v ← map256_at (toChar (buf in_))
  pure { in_ := in_, out := s.out + 1, outbuf := s.outbuf.store s.out v }

/-- The function `replace60_simd(in, out, offset)`: the buffer `out` points
into, after the call. -/
def replace60_simd (buf : Mem) (in_ : Int) (outbuf : Mem) (out : Int) (offset : Int) :
    Option Mem := do
  let size := (60 - offset).tdiv 2
  let s := fast_op buf size { in_ := in_, out := out, outbuf := outbuf }
  let s ←
    if offset.tmod 2 ≠ 0 then do
      let s ← scalar_op buf s
      let s := { s with in_ := s.in_ - 1 }
      let s ← scalar_op buf s
      pure (fast_op buf (29 - size) s)
    else
      let s := { s with in_ := s.in_ - 1 }
      pure (fast_op buf (30 - size) s)
  pure (s.outbuf.store s.out 10)

/-! ## A whole body: `replace` -/

def line_size : Nat := 61

def block_size : Nat := line_size * 1024

/-- The loop `while (oit < oend)` of `replace`, bounded by `fuel` rounds. -/
def block_loop (buf : Mem) (off : Int) : Nat → Int → Int → Mem → Option Mem
  | 0, _, _, _ => none
  | fuel + 1, it, oit, outbuf =>
    if oit < (block_size : Int) then do
      let outbuf ← replace60_simd buf it outbuf oit off
      block_loop buf off fuel (it - line_size) (oit + line_size) outbuf
    else some outbuf

/-- The state of `replace` between two blocks: both buffers and what has been
written so far. -/
structure Progress where
  buf : Mem
  outbuf : Mem
  written : List Nat

/-- The loop `for (n = 1; n <= nblock; ++n)` of `replace`, from round `n`,
`todo` rounds left. -/
def blocks_loop (file : List Nat) (r : range) (off : Int) : Nat → Nat → Progress →
    Option Progress
  | 0, _, p => some p
  | todo + 1, n, p => do
    let buf := pread file p.buf block_size
      ((r.begin + r.size + 2 ^ 64 - n * block_size % 2 ^ 64) % 2 ^ 64)
    let outbuf ← block_loop buf off (block_size + 1) block_size 0 p.outbuf
    blocks_loop file r off todo (n + 1)
      { buf := buf, outbuf := outbuf, written := p.written ++ outbuf.read block_size }

/-- The loop `for (n = 0; n < tail / line_size; ++n)` of `replace`. -/
def lines_loop (buf : Mem) (off : Int) : Nat → Cursor → Option Cursor
  | 0, s => some s
  | n + 1, s => do
    let outbuf ← replace60_simd buf s.in_ s.outbuf s.out off
    lines_loop buf off n
      { in_ := s.in_ - line_size, out := s.out + line_size, outbuf := outbuf }

/-- The loop that handles the remaining line: `*oit++ = swmap(*(--it))`. -/
def rest_loop (buf : Mem) : Nat → Cursor → Cursor
  | 0, s => s
  | n + 1, s =>
    rest_loop buf n
      { in_ := s.in_ - 1, out := s.out + 1,
        outbuf := s.outbuf.store s.out (swmap (buf (s.in_ - 1) % 256)) }

/-- The function `replace(fd, r)`: the bytes it writes to standard output. -/
def replace (file : List Nat) (r : range) : Option (List Nat) := do
  let off : Int := ((60 - r.size % 61 : Nat) : Int)
  let nblock := r.size / block_size
  let tail := r.size - nblock * block_size
  -- handle block after block
  let p ← blocks_loop file r off nblock 1
    { buf := fun _ => 0, outbuf := fun _ => 0, written := [] }
  let buf := pread file p.buf tail r.begin
  -- handle remaining block
  let s ← lines_loop buf off (tail / line_size)
    { in_ := tail, out := 0, outbuf := p.outbuf }
  -- handle remaining line
  let s := rest_loop buf (tail - (tail / line_size) * line_size) s
  pure (p.written ++ s.outbuf.read tail ++ [10])

/-! ## `replace` when a lookup outside `map256` reads a byte -/

/-- The lookup `map256[c]` for a `char` `c` when a read outside the table
gives a byte: the index is converted to `size_t`; at an index `i` outside the
256 entries the read gives `beyond i`, the byte that stands there. -/
def map256_read (beyond : Nat → Nat) (c : Int) : Nat :=
  let i := (c % 2 ^ 64).toNat
  if i < 256 then map256.getD i 0 else beyond i % 256

/-- The statement `*out++ = map256[*(--in)]`, the lookup read by
`map256_read`. -/
def scalar_op_read (beyond : Nat → Nat) (buf : Mem) (s : Cursor) : Cursor :=
  let in_ := s.in_ - 1
  let v := map256_read beyond (toChar (buf in_))
  { in_ := in_, out := s.out + 1, outbuf := s.outbuf.store s.out v }

/-- The function `replace60_simd(in, out, offset)`, its two lookups in
`map256` read by `map256_read`. -/
def replace60_simd_read (beyond : Nat → Nat) (buf : Mem) (in_ : Int) (outbuf : Mem) (out : Int)
    (offset : Int) : Mem :=
  let size := (60 - offset).tdiv 2
  let s := fast_op buf size { in_ := in_, out := out, outbuf := outbuf }
  let s :=
    if offset.tmod 2 ≠ 0 then
      let s := scalar_op_read beyond buf s
      let s := { s with in_ := s.in_ - 1 }
      let s := scalar_op_read beyond buf s
      fast_op buf (29 - size) s
    else
      let s := { s with in_ := s.in_ - 1 }
      fast_op buf (30 - size) s
  s.outbuf.store s.out 10

/-- The loop `while (oit < oend)` of `replace`, bounded by `fuel` rounds. -/
def block_loop_read (beyond : Nat → Nat) (buf : Mem) (off : Int) :
    Nat → Int → Int → Mem → Option Mem
  | 0, _, _, _ => none
  | fuel + 1, it, oit, outbuf =>
    if oit < (block_size : Int) then
      block_loop_read beyond buf off fuel (it - line_size) (oit + line_size)
        (replace60_simd_read beyond buf it outbuf oit off)
    else some outbuf

/-- The state of `replace` between two blocks: both buffers and the calls of
`write` so far, each with the bytes it sent. -/
structure Writes where
  buf : Mem
  outbuf : Mem
  calls : List (List Nat)

/-- The loop `for (n = 1; n <= nblock; ++n)` of `replace`, from round `n`,
`todo` rounds left. -/
def blocks_loop_read (beyond : Nat → Nat) (file : List Nat) (r : range) (off : Int) :
    Nat → Nat → Writes → Option Writes
  | 0, _, p => some p
  | todo + 1, n, p => do
    let buf := pread file p.buf block_size
      ((r.begin + r.size + 2 ^ 64 - n * block_size % 2 ^ 64) % 2 ^ 64)
    let outbuf ← block_loop_read beyond buf off (block_size + 1) block_size 0 p.outbuf
    blocks_loop_read beyond file r off todo (n + 1)
      { buf := buf, outbuf := outbuf, calls := p.calls ++ [outbuf.read block_size] }

/-- The loop `for (n = 0; n < tail / line_size; ++n)` of `replace`. -/
def lines_loop_read (beyond : Nat → Nat) (buf : Mem) (off : Int) : Nat → Cursor → Cursor
  | 0, s => s
  | n + 1, s =>
    lines_loop_read beyond buf off n
      { in_ := s.in_ - line_size, out := s.out + line_size,
        outbuf := replace60_simd_read beyond buf s.in_ s.outbuf s.out off }

/-- The function `replace(fd, r)`, the lookups in `map256` read by
`map256_read`: its calls of `write` in order, each with the bytes it sends. -/
def replace_read (beyond : Nat → Nat) (file : List Nat) (r : range) :
    Option (List (List Nat)) := do
  let off : Int := ((60 - r.size % 61 : Nat) : Int)
  let nblock := r.size / block_size
  let tail := r.size - nblock * block_size
  -- handle block after block
  let p ← blocks_loop_read beyond file r off nblock 1
    { buf := fun _ => 0, outbuf := fun _ => 0, calls := [] }
  let buf := pread file p.buf tail r.begin
  -- handle remaining block
  let s := lines_loop_read beyond buf off (tail / line_size)
    { in_ := tail, out := 0, outbuf := p.outbuf }
  -- handle remaining line
  let s := rest_loop buf (tail - (tail / line_size) * line_size) s
  pure (p.calls ++ [s.outbuf.read tail, [10]])

/-! ## The accesses of `replace` -/

/-- One access of `replace` to its two buffers or to a file: `len` bytes
loaded from `buf` at address `lo`, `len` bytes stored to `outbuf` at address
`lo`, a `pread` of `count` bytes into the start of `buf`, a `write` of `count`
bytes. -/
inductive Access where
  | load (lo : Int) (len : Nat)
  | store (lo : Int) (len : Nat)
  | pread (count : Nat)
  | write (count : Nat)
  deriving DecidableEq, Repr

/-- First loop of `fast_op`, with the accesses it makes: each step loads 16
bytes at `in` and stores 16 bytes at `out`. -/
def fast_op_simd_log (buf : Mem) : Nat → Cursor → Cursor × List Access
  | 0, s => (s, [])
  | n + 1, s =>
    let in_ := s.in_ - simd_width
    let r := fast_op_simd_log buf n
      { in_ := in_, out := s.out + simd_width,
        outbuf := reverse_complement_sse buf in_ s.outbuf s.out }
    (r.1, Access.load in_ 16 :: Access.store s.out 16 :: r.2)

/-- Second loop of `fast_op`, with the accesses it makes: each step copies 2
bytes from `in` and 2 bytes to `out`. -/
def fast_op_pairs_log (buf : Mem) : Nat → Cursor → Cursor × List Access
  | 0, s => (s, [])
  | n + 1, s =>
    let in_ := s.in_ - 2
    let from_ := buf in_ % 256 + 256 * (buf (in_ + 1) % 256)
    let tmp := map from_
    let r := fast_op_pairs_log buf n
      { in_ := in_, out := s.out + 2,
        outbuf := (s.outbuf.store s.out (tmp % 256)).store (s.out + 1) (tmp / 256) }
    (r.1, Access.load in_ 2 :: Access.store s.out 2 :: r.2)

/-- The lambda `fast_op(working_set)`, with the accesses it makes. -/
def fast_op_log (buf : Mem) (working_set : Int) (s : Cursor) : Cursor × List Access :=
  let n := working_set.tdiv (simd_width.tdiv 2)
  let r1 := fast_op_simd_log buf n.toNat s
  let r2 := fast_op_pairs_log buf (working_set - (simd_width.tdiv 2) * n).toNat r1.1
  (r2.1, r1.2 ++ r2.2)

/-- The statement `*out++ = map256[*(--in)]`, with the accesses it makes: the
byte is loaded, and stored once the lookup is done. -/
def scalar_op_log (buf : Mem) (s : Cursor) : Option Cursor × List Access :=
  match scalar_op buf s with
  | none => (none, [Access.load (s.in_ - 1) 1])
  | some t => (some t, [Access.load (s.in_ - 1) 1, Access.store s.out 1])

/-- The function `replace60_simd`, with the accesses it makes. -/
def replace60_simd_log (buf : Mem) (in_ : Int) (outbuf : Mem) (out : Int) (offset : Int) :
    Option Mem × List Access :=
  let size := (60 - offset).tdiv 2
  let r1 := fast_op_log buf size { in_ := in_, out := out, outbuf := outbuf }
  if offset.tmod 2 ≠ 0 then
    match scalar_op_log buf r1.1 with
    | (none, l2) => (none, r1.2 ++ l2)
    | (some s2, l2) =>
      match scalar_op_log buf { s2 with in_ := s2.in_ - 1 } with
      | (none, l3) => (none, r1.2 ++ l2 ++ l3)
      | (some s3, l3) =>
        let r4 := fast_op_log buf (29 - size) s3
        (some (r4.1.outbuf.store r4.1.out 10),
          r1.2 ++ l2 ++ l3 ++ r4.2 ++ [Access.store r4.1.out 1])
  else
    let r4 := fast_op_log buf (30 - size) { r1.1 with in_ := r1.1.in_ - 1 }
    (some (r4.1.outbuf.store r4.1.out 10), r1.2 ++ r4.2 ++ [Access.store r4.1.out 1])

/-- The access stays inside: a load inside `[rlo, rhi)`, a store inside
`[wlo, whi)`, a `pread` or a `write` of at most `block_size` bytes. -/
def Access.within (rlo rhi wlo whi : Int) : Access → Prop
  | Access.load lo len => rlo ≤ lo ∧ lo + len ≤ rhi
  | Access.store lo len => wlo ≤ lo ∧ lo + len ≤ whi
  | Access.pread count => count ≤ block_size
  | Access.write count => count ≤ block_size

/-- A load of a single byte from `buf`. -/
def Access.isByteLoad : Access → Bool
  | Access.load _ 1 => true
  | _ => false

/-! ## Finding the records: `find_first_of`, `next_group`, `main` -/

/-- The constant `std::string_view::npos`. -/
def npos : Nat := 2 ^ 64 - 1

/-- The call `sv{mem, bytes}.find_first_of(c)`: the index of the first `c`,
`npos` when there is none. -/
def sv_find_first_of (s : List Nat) (c : Nat) : Nat :=
  if s.indexOf c < s.length then s.indexOf c else npos

/-- The loop `while (true)` of `find_first_of`, bounded by `fuel` rounds; the
result is the value returned and the value of `endfile` afterwards. A `pread`
at an offset that is negative as `off_t` fails, and `assert(bytes >= 0)` with it. -/
def find_first_of_loop (file : List Nat) (c : Nat) : Nat → Nat → Nat → Option (Nat × Nat)
  | 0, _, _ => none
  | fuel + 1, pos, endfile =>
    if 2 ^ 63 ≤ pos then none
    else
      let mem := (file.drop pos).take (1024 * 32)
      let bytes := mem.length
      if bytes = 0 then some (npos, pos)
      else
        let r := sv_find_first_of mem c
        if r ≠ npos then some ((pos + r) % 2 ^ 64, endfile)
        else find_first_of_loop file c fuel ((pos + bytes) % 2 ^ 64) endfile

/-- The function `find_first_of(fd, c, pos, endfile)`: the value returned and
the value of `endfile` afterwards. Every round but the last reads at least
one byte, so `file.length + 1` rounds are enough. -/
def find_first_of (file : List Nat) (c pos endfile : Nat) : Option (Nat × Nat) :=
  if pos = npos then some (pos, endfile)
  else find_first_of_loop file c (file.length + 1) pos endfile

/-- The lambda `next_group` of `main`, called with the captured `prev`: the
pair (header, body) returned and the value of `prev` afterwards. The
subtractions are those of `size_t`. -/
def next_group (file : List Nat) (prev : Nat) : Option ((range × range) × Nat) := do
  let endfile := 0
  let (arrow_pos, endfile) ← find_first_of file 62 prev endfile
  let (begin_pos, endfile) ← find_first_of file 10 arrow_pos endfile
  if begin_pos = npos then
    pure ((⟨0, 0⟩, ⟨0, 0⟩), prev)
  else do
    let (found, endfile) ← find_first_of file 62 begin_pos endfile
    let prev := if found = npos then endfile else found
    pure ((⟨arrow_pos, (begin_pos + 2 ^ 64 - arrow_pos + 1) % 2 ^ 64⟩,
           ⟨(begin_pos + 1) % 2 ^ 64, (prev + 2 ^ 64 - begin_pos + 2 ^ 64 - 2) % 2 ^ 64⟩), prev)

/-- The loop of `main` that collects the groups, bounded by `fuel` rounds. -/
def groups_loop (file : List Nat) : Nat → Nat → List (range × range) →
    Option (List (range × range))
  | 0, _, _ => none
  | fuel + 1, prev, groups => do
    let (pair, prev) ← next_group file prev
    if pair = (⟨0, 0⟩, ⟨0, 0⟩) then pure groups
    else groups_loop file fuel prev (groups ++ [pair])

/-- The call `sendfile(STDOUT_FILENO, fd, &begin, size)`: the bytes it copies. -/
def sendfile (file : List Nat) (r : range) : List Nat :=
  (file.drop r.begin).take r.size

/-- The loop of `main` over the groups: the header is copied, the body goes
through `replace`. -/
def emit_loop (file : List Nat) : List (range × range) → Option (List Nat)
  | [] => some []
  | (header, group) :: rest => do
    let body ← replace file group
    let tail ← emit_loop file rest
    pure (sendfile file header ++ body ++ tail)

/-- The function `main`: the bytes the program writes to standard output for
the file behind standard input. Every group holds at least its `>`, so
`file.length + 1` rounds collect them all. -/
def main (file : List Nat) : Option (List Nat) := do
  let groups ← groups_loop file (file.length + 1) 0 []
  emit_loop file groups

/-! ## Vocabulary of the specification -/

/-- The 16 letters of the alphabet, upper case: A C G T U M R W S Y K V H D B N. -/
def letters : List Nat := [65, 67, 71, 84, 85, 77, 82, 87, 83, 89, 75, 86, 72, 68, 66, 78]

/-- Upper case of an ASCII byte. -/
def uppercase (c : Nat) : Nat := if 97 ≤ c ∧ c ≤ 122 then c - 32 else c

/-- A symbol: one of the 16 letters, in either case. -/
def isSym (c : Nat) : Prop := uppercase c ∈ letters

instance (c : Nat) : Decidable (isSym c) := by unfold isSym; infer_instance

/-- The complement of each letter, as the specification lists it:
A->T, C->G, G->C, T->A, U->A, M->K, K->M, R->Y, Y->R, W->W, S->S, V->B, B->V,
H->D, D->H, N->N. -/
def complements : List (Nat × Nat) :=
  [(65, 84), (67, 71), (71, 67), (84, 65), (85, 65), (77, 75), (75, 77), (82, 89),
   (89, 82), (87, 87), (83, 83), (86, 66), (66, 86), (72, 68), (68, 72), (78, 78)]

/-- The symbols of a body: its bytes without the line-breaks. -/
def symbols (l : List Nat) : List Nat := l.filter (· ≠ 10)

/-- The number of line-break bytes. -/
def lineBreaks (l : List Nat) : Nat := l.count 10

/-- Lines of `w` symbols, one line-break after every line; `col` symbols are
already on the current line. A last, shorter line gets its line-break too. -/
def wrapFrom (w : Nat) : Nat → List Nat → List Nat
  | col, [] => if col = 0 then [] else [10]
  | col, c :: cs =>
    if col + 1 = w then c :: 10 :: wrapFrom w 0 cs else c :: wrapFrom w (col + 1) cs

/-- Lines of 60 symbols, one line-break after every line. -/
def wrap60 (l : List Nat) : List Nat := wrapFrom 60 0 l

/-- The reverse complement of a body: its symbols in reverse order, each
replaced by its complement. -/
def reverseComplement (body : List Nat) : List Nat :=
  (symbols body).reverse.map swmap

/-- The lines of an output: the runs of bytes ended by a line-break, without it. -/
def lines : List Nat → List (List Nat)
  | [] => []
  | c :: cs =>
    if c = 10 then [] :: lines cs
    else match lines cs with
      | [] => []
      | l :: ls => (c :: l) :: ls

/-- A body as the engine expects it: a line-break after every 60 symbols and
nowhere else (byte `i` is a line-break when `i % 61 = 60`, a symbol otherwise). -/
def wrappedAt60 (body : List Nat) : Prop :=
  ∀ i, i < body.length → if i % 61 = 60 then body.getD i 0 = 10 else isSym (body.getD i 0)

instance (body : List Nat) : Decidable (wrappedAt60 body) := by
  unfold wrappedAt60; infer_instance

/-- A well-formed body: zero or more lines of exactly 60 symbols, each followed
by one line-break, then a last line of 1 to 60 symbols without a line-break. -/
def wellFormed (body : List Nat) : Prop :=
  wrappedAt60 body ∧ body.length % 61 ≠ 0

instance (body : List Nat) : Decidable (wellFormed body) := by
  unfold wellFormed; infer_instance

/-- The body made of the lines `ls`, each followed by one line-break, and then
of the line `last` without a line-break. -/
def layout (ls : List (List Nat)) (last : List Nat) : List Nat :=
  ls.foldr (fun l acc => l ++ 10 :: acc) last

/-- The phase `off` that `replace` computes for a body of `size` bytes. -/
def phase (size : Nat) : Nat := 60 - size % 61

/-- The number of bytes between the end of a body and the first line-break
met walking backward from the end. -/
def trailingSymbols (body : List Nat) : Nat :=
  (body.reverse.takeWhile (· ≠ 10)).length

/-- Byte `p` of what `replace` writes for a body wrapped at 60, read off the
body: a line-break closes every group of 61 bytes and the output, and the
other bytes are complements of the body read backwards, one byte further
back once the line-break of the 61-byte window has been passed. -/
def outByte (body : List Nat) (p : Nat) : Nat :=
  if p = body.length ∨ p % 61 = 60 then 10
  else swmap (body.getD
    (body.length - 1 - p - (if p % 61 < body.length % 61 then 0 else 1)) 0)

/-! ## Auxiliary notions for the proofs -/

/-- Between the cursors `s` and `t`, `n` bytes were read backwards from
`s.in_`, complemented by `swmap` and written forwards from `s.out`; nothing
else of the output buffer changed. -/
def Copied (buf : Mem) (s t : Cursor) (n : Int) : Prop :=
  t.in_ = s.in_ - n ∧ t.out = s.out + n ∧
  ∀ j, t.outbuf j =
    if s.out ≤ j ∧ j < s.out + n then swmap (buf (s.in_ - 1 - (j - s.out))) else s.outbuf j

/-- All that `replace` writes for a body wrapped at 60, byte by byte. -/
def outBytes (body : List Nat) : List Nat :=
  (List.range (body.length + 1)).map (outByte body)

/-- What the engine needs of a body: bytes, and a symbol wherever
`replace60_simd` reads one (all bytes after the first `length % 61` except
the one that closes each group of 61). -/
def EngineInput (body : List Nat) : Prop :=
  ∀ i, i < body.length → body.getD i 0 < 256 ∧
    (body.length % 61 ≤ i → i % 61 ≠ 60 → isSym (body.getD i 0))

/-! # Theorems -/

/-! ## The tables -/

theorem isSym_lt {c : Nat} (h : isSym c) : c < 123 := by
  unfold isSym uppercase at h
  split at h
  · omega
  · simp [letters] at h; omega

theorem swmap_lt (c : Nat) : swmap c < 128 := by
  unfold swmap; split <;> decide

theorem map256_at_toChar {b : Nat} (h : b < 128) : map256_at (toChar b) = some (swmap b) := by
  have h1 : toChar b = (b : Int) := by unfold toChar; simp; omega
  have h2 : ((b : Int) % 2 ^ 64).toNat = b := by omega
  have h3 : b % 256 = b := by omega
  unfold map256_at
  rw [h1, h2]
  simp [map256, h3, List.getElem?_range (show b < 256 by omega)]

theorem map_lo_hi (it : Nat) :
    map it % 256 = swmap ((it >>> 8) % 256) ∧ map it / 256 = swmap (it % 256) := by
  have h1 := swmap_lt ((it >>> 8) % 256)
  have h2 := swmap_lt (it % 256)
  have h3 : swmap ((it >>> 8) % 256) < 2 ^ 8 := by omega
  have h4 := Nat.mul_add_lt_is_or h3 (swmap (it % 256))
  unfold map
  simp only [Nat.shiftLeft_eq]
  rw [Nat.mul_comm, ← h4]
  omega

/-! ## The 16-byte step and `fast_op` -/

theorem reverse_complement_reg_lane (buf : Mem) (p : Int) (i : Nat) (hi : i < 16) :
    reverse_complement_reg buf p i = sse_lane (buf (p + ((15 - i : Nat) : Int))) := by
  have hp : ∀ c, packed c i = c := by intro c; interval_cases i <;> rfl
  have hp0 : ∀ c, packed c 0 = c := fun _ => rfl
  have hm : mm_set_epi8 0 1 2 3 4 5 6 7 8 9 10 11 12 13 14 15 i = 15 - i := by
    interval_cases i <;> rfl
  have hm0 : mm_set_epi8 0 1 2 3 4 5 6 7 8 9 10 11 12 13 14 15 0 = 15 := rfl
  have h1 : (15 - i) &&& 0x80 = 0 := by interval_cases i <;> rfl
  have h2 : (15 - i) &&& 0x0f = 15 - i := by interval_cases i <;> rfl
  have h3 : 15 &&& 0x80 = 0 := rfl
  have h4 : 15 &&& 0x0f = 15 := rfl
  simp only [reverse_complement_reg, sse_lane, mm_and_si128, mm_or_si128, mm_cmplt_epi8,
    mm_sub_epi8, mm_shuffle_epi8, mm_loadu_si128, hp, hp0, hm, hm0, h1, h2, h3, h4]

theorem sse_lane_isSym : ∀ c, c < 256 → isSym c → sse_lane c = swmap c := by
  decide

theorem sse_lane_of_isSym {c : Nat} (h : isSym c) : sse_lane c = swmap c :=
  sse_lane_isSym c (by have := isSym_lt h; omega) h

theorem Copied.refl (buf : Mem) (s : Cursor) : Copied buf s s 0 := by
  refine ⟨by omega, by omega, fun j => ?_⟩
  rw [if_neg (by omega)]

theorem Copied.trans {buf : Mem} {s t u : Cursor} {n k : Int} (hn : 0 ≤ n) (hk : 0 ≤ k)
    (h1 : Copied buf s t n) (h2 : Copied buf t u k) : Copied buf s u (n + k) := by
  obtain ⟨a1, b1, c1⟩ := h1
  obtain ⟨a2, b2, c2⟩ := h2
  refine ⟨by omega, by omega, fun j => ?_⟩
  rw [c2 j, c1 j, a1, b1]
  split_ifs <;> first | omega | (congr 2; omega)

theorem Copied_sse (buf : Mem) (s : Cursor)
    (h : ∀ i, s.in_ - 16 ≤ i → i < s.in_ → isSym (buf i)) :
    Copied buf s
      { in_ := s.in_ - simd_width, out := s.out + simd_width,
        outbuf := reverse_complement_sse buf (s.in_ - simd_width) s.outbuf s.out } 16 := by
  refine ⟨rfl, rfl, fun j => ?_⟩
  simp only [reverse_complement_sse, mm_storeu_si128, simd_width]
  split_ifs with hj
  · rw [reverse_complement_reg_lane _ _ _ (by omega)]
    have e : s.in_ - 16 + ((15 - (j - s.out).toNat : Nat) : Int) = s.in_ - 1 - (j - s.out) := by
      omega
    rw [e]
    exact sse_lane_of_isSym (h _ (by omega) (by omega))
  · rfl

theorem Copied_fast_op_simd (buf : Mem) (n : Nat) : ∀ s : Cursor,
    (∀ i, s.in_ - 16 * n ≤ i → i < s.in_ → isSym (buf i)) →
    Copied buf s (fast_op_simd buf n s) (16 * n) := by
  induction n with
  | zero => intro s _; exact Copied.refl buf s
  | succ n ih =>
    intro s h
    have h1 := Copied_sse buf s (fun i a b => h i (by push_cast; omega) b)
    have e1 : s.in_ - simd_width = s.in_ - 16 := rfl
    have h2 := ih ⟨s.in_ - simd_width, s.out + simd_width,
        reverse_complement_sse buf (s.in_ - simd_width) s.outbuf s.out⟩
      (fun i a b => h i (by simp only [e1] at a; push_cast; omega)
        (by simp only [e1] at b; omega))
    have := Copied.trans (by omega) (by omega) h1 h2
    simp only [fast_op_simd]
    convert this using 1
    push_cast; ring

theorem Copied_pair (buf : Mem) (s : Cursor)
    (h : ∀ i, s.in_ - 2 ≤ i → i < s.in_ → isSym (buf i)) :
    Copied buf s
      ⟨s.in_ - 2, s.out + 2,
        (s.outbuf.store s.out
          (map (buf (s.in_ - 2) % 256 + 256 * (buf (s.in_ - 2 + 1) % 256)) % 256)).store
          (s.out + 1)
          (map (buf (s.in_ - 2) % 256 + 256 * (buf (s.in_ - 2 + 1) % 256)) / 256)⟩ 2 := by
  have ha := isSym_lt (h (s.in_ - 2) (by omega) (by omega))
  have hb := isSym_lt (h (s.in_ - 2 + 1) (by omega) (by omega))
  obtain ⟨l1, l2⟩ := map_lo_hi (buf (s.in_ - 2) % 256 + 256 * (buf (s.in_ - 2 + 1) % 256))
  have e1 : ((buf (s.in_ - 2) % 256 + 256 * (buf (s.in_ - 2 + 1) % 256)) >>> 8) % 256
      = buf (s.in_ - 2 + 1) := by
    rw [Nat.shiftRight_eq_div_pow]; omega
  have e2 : (buf (s.in_ - 2) % 256 + 256 * (buf (s.in_ - 2 + 1) % 256)) % 256
      = buf (s.in_ - 2) := by omega
  rw [e1] at l1
  rw [e2] at l2
  refine ⟨rfl, rfl, fun j => ?_⟩
  simp only [Mem.store, l1, l2]
  split_ifs <;> first | omega | (congr 2; omega)

theorem Copied_fast_op_pairs (buf : Mem) (n : Nat) : ∀ s : Cursor,
    (∀ i, s.in_ - 2 * n ≤ i → i < s.in_ → isSym (buf i)) →
    Copied buf s (fast_op_pairs buf n s) (2 * n) := by
  induction n with
  | zero => intro s _; exact Copied.refl buf s
  | succ n ih =>
    intro s h
    have h1 := Copied_pair buf s (fun i a b => h i (by push_cast; omega) b)
    have e : (2 * ((n + 1 : Nat) : Int)) = 2 + 2 * n := by push_cast; ring
    simp only [fast_op_pairs]
    rw [e]
    refine Copied.trans (by omega) (by omega) h1 (ih _ ?_)
    intro i a b
    have a' : s.in_ - 2 - 2 * (n : Int) ≤ i := a
    have b' : i < s.in_ - 2 := b
    exact h i (by push_cast; omega) (by omega)

theorem Copied_fast_op (buf : Mem) (w : Int) (hw : 0 ≤ w) (s : Cursor)
    (h : ∀ i, s.in_ - 2 * w ≤ i → i < s.in_ → isSym (buf i)) :
    Copied buf s (fast_op buf w s) (2 * w) := by
  have e8 : simd_width.tdiv 2 = 8 := by decide
  have en : w.tdiv 8 = w / 8 := Int.tdiv_eq_ediv hw (by omega)
  have c1 : ((w / 8).toNat : Int) = w / 8 := by omega
  have c2 : ((w - 8 * (w / 8)).toNat : Int) = w - 8 * (w / 8) := by omega
  have h1 := Copied_fast_op_simd buf (w / 8).toNat s (fun i a b => h i (by omega) b)
  have h2 := Copied_fast_op_pairs buf (w - 8 * (w / 8)).toNat
    (fast_op_simd buf (w / 8).toNat s)
    (fun i a b => h i (by rw [h1.1] at a; omega) (by rw [h1.1] at b; omega))
  have := Copied.trans (by omega) (by omega) h1 h2
  simp only [fast_op, e8, en]
  convert this using 1
  omega

theorem Copied_scalar_op (buf : Mem) (s : Cursor) (h : isSym (buf (s.in_ - 1))) :
    ∃ t, scalar_op buf s = some t ∧ Copied buf s t 1 := by
  have hb := isSym_lt h
  refine ⟨⟨s.in_ - 1, s.out + 1, s.outbuf.store s.out (swmap (buf (s.in_ - 1)))⟩, ?_, rfl, rfl,
    fun j => ?_⟩
  · simp [scalar_op, map256_at_toChar (show buf (s.in_ - 1) < 128 by omega)]
  · simp only [Mem.store]
    split_ifs <;> first | omega | (congr 2; omega)

theorem replace60_simd_spec (buf : Mem) (in_ : Int) (outbuf : Mem) (out : Int) (offset : Int)
    (h0 : 0 ≤ offset) (h60 : offset ≤ 60)
    (h : ∀ i, in_ - 61 ≤ i → i < in_ → i ≠ in_ - 61 + offset → isSym (buf i)) :
    ∃ ob, replace60_simd buf in_ outbuf out offset = some ob ∧
      ∀ j, ob j =
        if out ≤ j ∧ j < out + 60 then
          swmap (buf (in_ - 1 - (j - out) - (if j - out < 60 - offset then 0 else 1)))
        else if j = out + 60 then 10 else outbuf j := by
  have esize : (60 - offset).tdiv 2 = (60 - offset) / 2 := Int.tdiv_eq_ediv (by omega) (by omega)
  have emod : offset.tmod 2 = offset % 2 := Int.tmod_eq_emod h0 (by omega)
  have c1 := Copied_fast_op buf ((60 - offset) / 2) (by omega) ⟨in_, out, outbuf⟩
    (fun i a b => h i (by simp only at a; omega) (by simp only at b; omega)
      (by simp only at a; omega))
  simp only [replace60_simd, esize, emod]
  generalize fast_op buf ((60 - offset) / 2) ⟨in_, out, outbuf⟩ = s1 at c1 ⊢
  obtain ⟨a1, b1, d1⟩ := c1
  simp only at a1 b1 d1
  by_cases hodd : offset % 2 = 0
  · -- even
    have hc : ¬ (offset % 2 ≠ 0) := by omega
    have c4 := Copied_fast_op buf (30 - (60 - offset) / 2) (by omega)
      ⟨s1.in_ - 1, s1.out, s1.outbuf⟩
      (fun i a b => h i (by simp only [a1] at a; omega) (by simp only [a1] at b; omega)
        (by simp only [a1] at b; omega))
    rw [if_neg hc]
    generalize fast_op buf (30 - (60 - offset) / 2) ⟨s1.in_ - 1, s1.out, s1.outbuf⟩ = s4 at c4 ⊢
    obtain ⟨a4, b4, d4⟩ := c4
    simp only at a4 b4 d4
    refine ⟨_, rfl, fun j => ?_⟩
    simp only [Mem.store, b4, d4, d1, b1, a1]
    split_ifs <;> first | omega | (congr 2; omega)
  · -- odd
    have hc : offset % 2 ≠ 0 := hodd
    obtain ⟨s2, e2, a2, b2, d2⟩ := Copied_scalar_op buf s1
      (h _ (by rw [a1]; omega) (by rw [a1]; omega) (by rw [a1]; omega))
    obtain ⟨s3, e3, a3, b3, d3⟩ := Copied_scalar_op buf ⟨s2.in_ - 1, s2.out, s2.outbuf⟩
      (h _ (by simp only [a2, a1]; omega) (by simp only [a2, a1]; omega)
        (by simp only [a2, a1]; omega))
    simp only at a3 b3 d3
    have c4 := Copied_fast_op buf (29 - (60 - offset) / 2) (by omega) s3
      (fun i a b => h i (by simp only [a3, a2, a1] at a; omega)
        (by simp only [a3, a2, a1] at b; omega) (by simp only [a3, a2, a1] at b; omega))
    rw [if_pos hc, e2]
    simp only [Option.bind_eq_bind, Option.some_bind, Option.pure_def, e3]
    generalize fast_op buf (29 - (60 - offset) / 2) s3 = s4 at c4 ⊢
    obtain ⟨a4, b4, d4⟩ := c4
    refine ⟨_, rfl, fun j => ?_⟩
    have key : ∀ x y : Int, x = y → swmap (buf x) = swmap (buf y) := fun _ _ e => by rw [e]
    simp only [Mem.store, b4, d4, a3, b3, d3, a2, b2, d2, d1, b1, a1]
    split_ifs <;> first | omega | (apply key; omega)

/-! ## The loops of `replace` -/

theorem lines_loop_spec (buf : Mem) (off : Int) (h0 : 0 ≤ off) (h60 : off ≤ 60) (n : Nat) :
    ∀ s : Cursor,
    (∀ i, s.in_ - 61 * n ≤ i → i < s.in_ → (s.in_ - 1 - i) % 61 ≠ 60 - off → isSym (buf i)) →
    ∃ t, lines_loop buf off n s = some t ∧ t.in_ = s.in_ - 61 * n ∧ t.out = s.out + 61 * n ∧
      ∀ j, t.outbuf j =
        if s.out ≤ j ∧ j < s.out + 61 * n then
          (if (j - s.out) % 61 = 60 then 10
           else swmap (buf (s.in_ - 1 - (j - s.out) -
              (if (j - s.out) % 61 < 60 - off then 0 else 1))))
        else s.outbuf j := by
  induction n with
  | zero =>
    intro s _
    exact ⟨s, rfl, by simp, by simp, fun j => by rw [if_neg (by omega)]⟩
  | succ n ih =>
    intro s h
    obtain ⟨ob, e1, d1⟩ := replace60_simd_spec buf s.in_ s.outbuf s.out off h0 h60
      (fun i a b c => h i (by push_cast; omega) b (by omega))
    obtain ⟨t, e2, a2, b2, d2⟩ := ih ⟨s.in_ - line_size, s.out + line_size, ob⟩
      (fun i a b c => h i
        (by have a' : s.in_ - 61 - 61 * (n : Int) ≤ i := a
            push_cast; omega)
        (by have b' : i < s.in_ - 61 := b
            omega)
        (by have c' : (s.in_ - 61 - 1 - i) % 61 ≠ 60 - off := c
            omega))
    have a2' : t.in_ = s.in_ - 61 - 61 * (n : Int) := a2
    have b2' : t.out = s.out + 61 + 61 * (n : Int) := b2
    have d2' : ∀ j, t.outbuf j =
        if s.out + 61 ≤ j ∧ j < s.out + 61 + 61 * (n : Int) then
          (if (j - (s.out + 61)) % 61 = 60 then 10
           else swmap (buf (s.in_ - 61 - 1 - (j - (s.out + 61)) -
              (if (j - (s.out + 61)) % 61 < 60 - off then 0 else 1))))
        else ob j := d2
    refine ⟨t, ?_, by push_cast; omega, by push_cast; omega, fun j => ?_⟩
    · simp only [lines_loop, e1, Option.bind_eq_bind, Option.some_bind, e2]
    · have key : ∀ x y : Int, x = y → swmap (buf x) = swmap (buf y) := fun _ _ e => by rw [e]
      rw [d2' j, d1 j]
      push_cast
      split_ifs <;> first | omega | (apply key; omega)

theorem block_loop_eq (buf : Mem) (off : Int) (k : Nat) : ∀ (fuel : Nat) (it oit : Int) (ob : Mem),
    oit + 61 * k = block_size → k < fuel →
    block_loop buf off fuel it oit ob = (lines_loop buf off k ⟨it, oit, ob⟩).map (·.outbuf) := by
  induction k with
  | zero =>
    intro fuel it oit ob h hf
    obtain ⟨f, rfl⟩ : ∃ f, fuel = f + 1 := ⟨fuel - 1, by omega⟩
    simp only [block_loop, lines_loop]
    rw [if_neg (by simp at h; omega)]
    rfl
  | succ k ih =>
    intro fuel it oit ob h hf
    obtain ⟨f, rfl⟩ : ∃ f, fuel = f + 1 := ⟨fuel - 1, by omega⟩
    simp only [block_loop, lines_loop]
    rw [if_pos (by push_cast at h; omega)]
    cases hr : replace60_simd buf it ob oit off with
    | none => rfl
    | some ob' =>
      simp only [Option.bind_eq_bind, Option.some_bind]
      exact ih f _ _ _ (by simp only [line_size]; push_cast at h ⊢; omega) (by omega)

theorem block_size_eq : block_size = 62464 := rfl

theorem pread_body (pre body post : List Nat) (b : Mem) (count a : Nat)
    (hlen : (pre ++ body ++ post).length < 2 ^ 63) (ha : a + count ≤ body.length)
    (i : Int) (h0 : 0 ≤ i) (hi : i < count) :
    pread (pre ++ body ++ post) b count (pre.length + a) i = body.getD (a + i.toNat) 0 := by
  simp only [List.length_append] at hlen
  unfold pread
  rw [if_neg (by omega)]
  rw [if_pos ⟨h0, hi, by simp only [List.length_append]; omega⟩]
  rw [List.getD_append _ _ _ _ (by simp only [List.length_append]; omega),
    List.getD_append_right _ _ _ _ (by omega)]
  congr 1
  omega

theorem Mem.read_eq (m : Mem) (n : Nat) (f : Nat → Nat) (h : ∀ j : Nat, j < n → m (j : Int) = f j) :
    m.read n = (List.range n).map f := by
  unfold Mem.read
  apply List.map_congr_left
  intro j hj
  exact h j (List.mem_range.mp hj)

theorem block_spec (pre body post : List Nat) (b ob : Mem) (n : Nat)
    (hlen : (pre ++ body ++ post).length < 2 ^ 63) (hin : EngineInput body)
    (hn1 : 1 ≤ n) (hn : n * block_size ≤ body.length) :
    ∃ ob', block_loop
        (pread (pre ++ body ++ post) b block_size
          ((pre.length + body.length + 2 ^ 64 - n * block_size % 2 ^ 64) % 2 ^ 64))
        ((60 - body.length % 61 : Nat) : Int) (block_size + 1) block_size 0 ob = some ob' ∧
      ob'.read block_size =
        (List.range block_size).map fun j => outByte body ((n - 1) * block_size + j) := by
  have hlen' := hlen
  simp only [List.length_append] at hlen'
  rw [block_size_eq] at hn ⊢
  have hoff : (pre.length + body.length + 2 ^ 64 - n * 62464 % 2 ^ 64) % 2 ^ 64
      = pre.length + (body.length - n * 62464) := by
    omega
  rw [hoff, block_loop_eq _ _ 1024 _ _ _ _ (by rw [block_size_eq]; norm_num) (by omega)]
  obtain ⟨t, e, -, -, d⟩ := lines_loop_spec
    (pread (pre ++ body ++ post) b 62464 (pre.length + (body.length - n * 62464)))
    ((60 - body.length % 61 : Nat) : Int) (by omega) (by omega) 1024 ⟨(62464 : Nat), 0, ob⟩
    (by
      intro i a c hne
      have a' : (62464 : Int) - 61 * (1024 : Nat) ≤ i := a
      have c' : i < (62464 : Int) := c
      have hne' : ((62464 : Int) - 1 - i) % 61 ≠ 60 - ((60 - body.length % 61 : Nat) : Int) := hne
      rw [pread_body pre body post b _ _ hlen (by omega) i (by omega) (by omega)]
      refine (hin _ (by omega)).2 (by omega) (by omega))
  refine ⟨t.outbuf, by rw [e]; rfl, ?_⟩
  apply Mem.read_eq
  intro j hj
  rw [d]
  have e1 : (⟨(62464 : Nat), 0, ob⟩ : Cursor).in_ = 62464 := rfl
  have e2 : (⟨(62464 : Nat), 0, ob⟩ : Cursor).out = 0 := rfl
  rw [e1, e2]
  unfold outByte
  split_ifs <;> try omega
  all_goals
    rw [pread_body pre body post b _ _ hlen (by omega) _ (by omega) (by omega)]
    congr 2
    omega

theorem Copied_rest_loop (buf : Mem) (n : Nat) : ∀ s : Cursor,
    (∀ i, s.in_ - n ≤ i → i < s.in_ → buf i < 256) →
    Copied buf s (rest_loop buf n s) n := by
  induction n with
  | zero => intro s _; exact Copied.refl buf s
  | succ n ih =>
    intro s h
    have hb := h (s.in_ - 1) (by push_cast; omega) (by omega)
    have h1 : Copied buf s
        ⟨s.in_ - 1, s.out + 1, s.outbuf.store s.out (swmap (buf (s.in_ - 1) % 256))⟩ 1 := by
      refine ⟨rfl, rfl, fun j => ?_⟩
      have key : ∀ x y : Int, x = y → swmap (buf x) = swmap (buf y) := fun _ _ e => by rw [e]
      simp only [Mem.store, Nat.mod_eq_of_lt hb]
      split_ifs <;> first | omega | (apply key; omega)
    have e : (((n + 1 : Nat)) : Int) = 1 + n := by push_cast; ring
    simp only [rest_loop]
    rw [e]
    refine Copied.trans (by omega) (by omega) h1 (ih _ ?_)
    intro i a b
    have a' : s.in_ - 1 - (n : Int) ≤ i := a
    have b' : i < s.in_ - 1 := b
    exact h i (by push_cast; omega) (by omega)

theorem blocks_loop_spec (pre body post : List Nat)
    (hlen : (pre ++ body ++ post).length < 2 ^ 63) (hin : EngineInput body) (todo : Nat) :
    ∀ (n : Nat) (p : Progress), 1 ≤ n → (n - 1 + todo) * block_size ≤ body.length →
      p.written = (List.range ((n - 1) * block_size)).map (outByte body) →
      ∃ q, blocks_loop (pre ++ body ++ post) ⟨pre.length, body.length⟩
            ((60 - body.length % 61 : Nat) : Int) todo n p = some q ∧
        q.written = (List.range ((n - 1 + todo) * block_size)).map (outByte body) := by
  induction todo with
  | zero =>
    intro n p _ _ hw
    exact ⟨p, rfl, by simpa using hw⟩
  | succ todo ih =>
    intro n p hn1 hn hw
    obtain ⟨ob, e1, r1⟩ := block_spec pre body post p.buf p.outbuf n hlen hin hn1
      (le_trans (Nat.mul_le_mul_right _ (by omega)) hn)
    have hw' : p.written ++ ob.read block_size
        = (List.range ((n + 1 - 1) * block_size)).map (outByte body) := by
      have e : (n + 1 - 1) * block_size = (n - 1) * block_size + block_size := by
        obtain ⟨k, rfl⟩ : ∃ k, n = k + 1 := ⟨n - 1, by omega⟩
        simp only [Nat.add_sub_cancel]
        ring
      rw [e, List.range_add, List.map_append, List.map_map, hw, r1]
      rfl
    obtain ⟨q, e2, r2⟩ := ih (n + 1)
      ⟨pread (pre ++ body ++ post) p.buf block_size
          ((pre.length + body.length + 2 ^ 64 - n * block_size % 2 ^ 64) % 2 ^ 64),
        ob, p.written ++ ob.read block_size⟩ (by omega)
      (by have : n + 1 - 1 + todo = n - 1 + (todo + 1) := by omega
          rw [this]; exact hn) hw'
    refine ⟨q, ?_, ?_⟩
    · simp only [blocks_loop, e1, Option.bind_eq_bind, Option.some_bind, e2]
    · have : n + 1 - 1 + todo = n - 1 + (todo + 1) := by omega
      rw [r2, this]

theorem tail_spec (pre body post : List Nat) (b ob : Mem)
    (hlen : (pre ++ body ++ post).length < 2 ^ 63) (hin : EngineInput body)
    (base tail : Nat) (hbase : base % 61 = 0) (hL : base + tail = body.length) :
    ∃ t, lines_loop (pread (pre ++ body ++ post) b tail pre.length)
          ((60 - body.length % 61 : Nat) : Int) (tail / line_size) ⟨tail, 0, ob⟩ = some t ∧
      (rest_loop (pread (pre ++ body ++ post) b tail pre.length)
          (tail - (tail / line_size) * line_size) t).outbuf.read tail
        = (List.range tail).map fun j => outByte body (base + j) := by
  have hp : ∀ i : Int, 0 ≤ i → i < tail →
      pread (pre ++ body ++ post) b tail pre.length i = body.getD i.toNat 0 := by
    intro i h0 hi
    have := pread_body pre body post b tail 0 hlen (by omega) i h0 hi
    simpa using this
  have hls : line_size = 61 := rfl
  rw [hls]
  obtain ⟨t, e, a, o, d⟩ := lines_loop_spec
    (pread (pre ++ body ++ post) b tail pre.length)
    ((60 - body.length % 61 : Nat) : Int) (by omega) (by omega) (tail / 61) ⟨tail, 0, ob⟩
    (by
      intro i a c hne
      have a' : (tail : Int) - 61 * ((tail / 61 : Nat) : Int) ≤ i := a
      have c' : i < (tail : Int) := c
      have hne' : ((tail : Int) - 1 - i) % 61 ≠ 60 - ((60 - body.length % 61 : Nat) : Int) := hne
      rw [hp i (by omega) c']
      exact (hin _ (by omega)).2 (by omega) (by omega))
  have a' : t.in_ = (tail : Int) - 61 * ((tail / 61 : Nat) : Int) := a
  have o' : t.out = 0 + 61 * ((tail / 61 : Nat) : Int) := o
  have d' : ∀ j, t.outbuf j =
      if (0 : Int) ≤ j ∧ j < 0 + 61 * ((tail / 61 : Nat) : Int) then
        (if (j - 0) % 61 = 60 then 10
          else swmap (pread (pre ++ body ++ post) b tail pre.length ((tail : Int) - 1 - (j - 0) -
            (if (j - 0) % 61 < 60 - ((60 - body.length % 61 : Nat) : Int) then 0 else 1))))
      else ob j := d
  obtain ⟨-, -, d2⟩ := Copied_rest_loop (pread (pre ++ body ++ post) b tail pre.length)
    (tail - tail / 61 * 61) t
    (by
      intro i x y
      rw [hp i (by omega) (by omega)]
      exact (hin _ (by omega)).1)
  refine ⟨t, e, ?_⟩
  apply Mem.read_eq
  intro j hj
  rw [d2, d', a', o']
  unfold outByte
  split_ifs <;> try omega
  all_goals
    rw [hp _ (by omega) (by omega)]
    congr 2
    omega

theorem replace_eq (pre body post : List Nat)
    (hlen : (pre ++ body ++ post).length < 2 ^ 63) (hin : EngineInput body) :
    replace (pre ++ body ++ post) ⟨pre.length, body.length⟩
      = some (outBytes body) := by
  unfold outBytes
  obtain ⟨q, e1, r1⟩ := blocks_loop_spec pre body post hlen hin (body.length / block_size) 1
    ⟨fun _ => 0, fun _ => 0, []⟩ (le_refl 1)
    (by simp only [Nat.sub_self, Nat.zero_add]; exact Nat.div_mul_le_self _ _) (by simp)
  simp only [Nat.sub_self, Nat.zero_add] at r1
  have hb : body.length / block_size * block_size % 61 = 0 := by
    rw [block_size_eq]; omega
  have hL : body.length / block_size * block_size
      + (body.length - body.length / block_size * block_size) = body.length := by
    have := Nat.div_mul_le_self body.length block_size
    omega
  obtain ⟨t, e2, r2⟩ := tail_spec pre body post q.buf q.outbuf hlen hin _ _ hb hL
  simp only [replace, e1, Option.bind_eq_bind, Option.some_bind, e2, r1, r2, Option.pure_def]
  congr 1
  have e10 : outByte body body.length = 10 := by simp [outByte]
  conv_rhs => rw [List.range_succ, List.map_append, ← hL, List.range_add, List.map_append,
    List.map_map]
  simp only [hL, List.map_cons, List.map_nil, e10]
  rfl

/-! ## The output, line by line -/

theorem getD_drop' (l : List Nat) (n i : Nat) : (l.drop n).getD i 0 = l.getD (n + i) 0 := by
  simp [List.getElem?_drop]

theorem getD_take' (l : List Nat) (n i : Nat) (h : i < n) : (l.take n).getD i 0 = l.getD i 0 := by
  simp [List.getElem?_take, h]

theorem map_range_reverse (f : Nat → Nat) (Z : List Nat) :
    (List.range Z.length).map (fun j => f (Z.getD (Z.length - 1 - j) 0)) = (Z.reverse).map f := by
  apply List.ext_getElem
  · simp
  · intro i h1 h2
    simp only [List.length_map, List.length_range] at h1
    simp only [List.getElem_map, List.getElem_range, List.getElem_reverse]
    rw [List.getD_eq_getElem _ _ (by omega)]

theorem outByte_length (body : List Nat) : outByte body body.length = 10 := by
  simp [outByte]

theorem outBytes_small (body : List Nat) (h : body.length < 61) :
    outBytes body = body.reverse.map swmap ++ [10] := by
  unfold outBytes
  rw [List.range_succ, List.map_append, ← map_range_reverse]
  simp only [List.map_cons, List.map_nil, outByte_length]
  congr 1
  apply List.map_congr_left
  intro p hp
  have hp := List.mem_range.mp hp
  unfold outByte
  rw [if_neg (by omega), if_pos (by omega)]
  rfl

theorem outBytes_peel (body : List Nat) (h : 61 ≤ body.length) :
    outBytes body =
      (body.drop (body.length - body.length % 61)).reverse.map swmap ++
      ((body.drop (body.length - 61)).take (60 - body.length % 61)).reverse.map swmap ++
      [10] ++ outBytes (body.take (body.length - 61)) := by
  have hm := Nat.mod_lt body.length (show 61 > 0 by omega)
  have hle := Nat.mod_le body.length 61
  have hY : (body.drop (body.length - body.length % 61)).length = body.length % 61 := by
    rw [List.length_drop]; omega
  have hX : ((body.drop (body.length - 61)).take (60 - body.length % 61)).length
      = 60 - body.length % 61 := by
    rw [List.length_take, List.length_drop]; omega
  have hB : (body.take (body.length - 61)).length = body.length - 61 := by
    rw [List.length_take]; omega
  have e : body.length + 1
      = body.length % 61 + ((60 - body.length % 61) + (1 + (body.length - 61 + 1))) := by
    omega
  unfold outBytes
  rw [e, List.range_add (body.length % 61), List.range_add (60 - body.length % 61),
    List.range_add 1 (body.length - 61 + 1)]
  simp only [List.map_append, List.map_map]
  rw [hB, ← map_range_reverse, ← map_range_reverse, hX, hY]
  simp only [List.append_assoc]
  congr 1
  · apply List.map_congr_left
    intro p hp
    have hp := List.mem_range.mp hp
    unfold outByte
    rw [if_neg (by omega), if_pos (by omega), getD_drop']
    congr 2
    omega
  congr 1
  · apply List.map_congr_left
    intro p hp
    have hp := List.mem_range.mp hp
    simp only [Function.comp]
    unfold outByte
    rw [if_neg (by omega), if_neg (by omega), getD_take' _ _ _ (by omega), getD_drop']
    congr 2
    omega
  congr 1
  · have e1 : List.range 1 = [0] := rfl
    simp only [e1, List.map_cons, List.map_nil, Function.comp]
    unfold outByte
    rw [if_pos (by omega)]
  · apply List.map_congr_left
    intro p hp
    have hp := List.mem_range.mp hp
    simp only [Function.comp]
    unfold outByte
    rw [hB]
    by_cases hc : p = body.length - 61 ∨ p % 61 = 60
    · rw [if_pos (by omega), if_pos hc]
    · rw [if_neg (by omega), if_neg hc]
      rw [getD_take' _ _ _ (by split_ifs <;> omega)]
      congr 2
      split_ifs <;> omega

theorem swmap_ne_lf (c : Nat) : swmap c ≠ 10 := by
  unfold swmap; split <;> decide

theorem isSym_ne_lf {c : Nat} (h : isSym c) : c ≠ 10 := by
  rintro rfl
  revert h
  decide

theorem wrapped_peel (body : List Nat) (hw : wrappedAt60 body) (h : 61 ≤ body.length) :
    body = body.take (body.length - 61)
        ++ (body.drop (body.length - 61)).take (60 - body.length % 61) ++ [10]
        ++ body.drop (body.length - body.length % 61) ∧
      (∀ x ∈ (body.drop (body.length - 61)).take (60 - body.length % 61), isSym x) ∧
      (∀ y ∈ body.drop (body.length - body.length % 61), isSym y) ∧
      wrappedAt60 (body.take (body.length - 61)) := by
  have hm := Nat.mod_lt body.length (show 61 > 0 by omega)
  refine ⟨?_, ?_, ?_, ?_⟩
  · have h1 : body.length - 61 + (60 - body.length % 61) < body.length := by omega
    have h2 := hw _ h1
    rw [if_pos (by omega), List.getD_eq_getElem _ _ h1] at h2
    have h3 : (body.drop (body.length - 61)).drop (60 - body.length % 61)
        = 10 :: body.drop (body.length - body.length % 61) := by
      rw [List.drop_drop, List.drop_eq_getElem_cons h1, h2]
      congr 2
      omega
    conv_lhs => rw [← List.take_append_drop (body.length - 61) body,
      ← List.take_append_drop (60 - body.length % 61) (body.drop (body.length - 61)), h3]
    simp only [List.append_assoc, List.singleton_append]
  · intro x hx
    obtain ⟨i, hi, rfl⟩ := List.mem_iff_getElem.mp hx
    have hi' := hi
    rw [List.length_take, List.length_drop] at hi'
    rw [← List.getD_eq_getElem _ 0 hi, getD_take' _ _ _ (by omega), getD_drop']
    have := hw (body.length - 61 + i) (by omega)
    rwa [if_neg (by omega)] at this
  · intro y hy
    obtain ⟨i, hi, rfl⟩ := List.mem_iff_getElem.mp hy
    have hi' := hi
    rw [List.length_drop] at hi'
    rw [← List.getD_eq_getElem _ 0 hi, getD_drop']
    have := hw (body.length - body.length % 61 + i) (by omega)
    rwa [if_neg (by omega)] at this
  · intro i hi
    rw [List.length_take] at hi
    rw [getD_take' _ _ _ (by omega)]
    exact hw i (by omega)

theorem wrapped_small (body : List Nat) (hw : wrappedAt60 body) (h : body.length < 61) :
    ∀ x ∈ body, isSym x := by
  intro x hx
  obtain ⟨i, hi, rfl⟩ := List.mem_iff_getElem.mp hx
  have := hw i hi
  rwa [if_neg (by omega), List.getD_eq_getElem _ _ hi] at this

theorem symbols_of_isSym (l : List Nat) (h : ∀ x ∈ l, isSym x) : symbols l = l := by
  unfold symbols
  rw [List.filter_eq_self]
  intro x hx
  simpa using isSym_ne_lf (h x hx)

theorem symbols_append (a b : List Nat) : symbols (a ++ b) = symbols a ++ symbols b := by
  simp [symbols]

theorem wrapFrom_short (l : List Nat) : ∀ col, col + l.length ≤ 60 → (l ≠ [] ∨ 0 < col) →
    wrapFrom 60 col l = l ++ [10] := by
  induction l with
  | nil =>
    intro col _ h
    have : col ≠ 0 := by rcases h with h | h; exact absurd rfl h; omega
    simp [wrapFrom, this]
  | cons c cs ih =>
    intro col h _
    simp only [List.length_cons] at h
    by_cases hc : col + 1 = 60
    · have : cs = [] := List.length_eq_zero.mp (by omega)
      subst this
      simp [wrapFrom, hc]
    · simp only [wrapFrom, hc, if_false, List.cons_append]
      rw [ih (col + 1) (by omega) (Or.inr (by omega))]

theorem wrapFrom_full (A R : List Nat) : ∀ col, col + A.length = 60 → A ≠ [] →
    wrapFrom 60 col (A ++ R) = A ++ 10 :: wrapFrom 60 0 R := by
  induction A with
  | nil => intro col _ h; exact absurd rfl h
  | cons c cs ih =>
    intro col h _
    simp only [List.length_cons] at h
    by_cases hc : col + 1 = 60
    · have : cs = [] := List.length_eq_zero.mp (by omega)
      subst this
      simp [wrapFrom, hc]
    · have hne : cs ≠ [] := by
        intro e; subst e; simp at h; omega
      simp only [List.cons_append, wrapFrom, hc, if_false, List.append_eq]
      rw [ih (col + 1) (by omega) hne]

theorem lines_append (A R : List Nat) (h : 10 ∉ A) : lines (A ++ 10 :: R) = A :: lines R := by
  induction A with
  | nil => simp [lines]
  | cons c cs ih =>
    have hc : c ≠ 10 := fun e => h (by simp [e])
    have hcs : 10 ∉ cs := fun e => h (by simp [e])
    simp only [List.cons_append, lines, hc, if_false, List.append_eq, ih hcs]

theorem lf_not_mem_map_swmap (l : List Nat) : 10 ∉ l.map swmap := by
  intro h
  obtain ⟨x, -, hx⟩ := List.mem_map.mp h
  exact swmap_ne_lf x hx

/-! ## Properties of the program -/

theorem wrappedAt60_line (l rest : List Nat) (hl : l.length = 60) (hs : ∀ x ∈ l, isSym x)
    (hr : wrappedAt60 rest) : wrappedAt60 (l ++ 10 :: rest) := by
  intro i hi
  simp only [List.length_append, List.length_cons] at hi
  by_cases h1 : i < 60
  · rw [if_neg (by omega), List.getD_append _ _ _ _ (by omega),
      List.getD_eq_getElem _ _ (by omega)]
    exact hs _ (List.getElem_mem _)
  · rw [List.getD_append_right _ _ _ _ (by omega), hl]
    by_cases h2 : i = 60
    · subst h2
      rw [if_pos (by omega)]
      rfl
    · obtain ⟨j, rfl⟩ : ∃ j, i = 61 + j := ⟨i - 61, by omega⟩
      have e : 61 + j - 60 = j + 1 := by omega
      rw [e, List.getD_cons_succ]
      have := hr j (by omega)
      have e2 : (61 + j) % 61 = j % 61 := by omega
      rwa [e2]

/-- Every body laid out as lines of exactly 60 symbols, each followed by one
line-break, and a last line of 1 to 60 symbols is well-formed. -/
theorem wellFormed_layout (ls : List (List Nat)) (last : List Nat)
    (hls : ∀ l ∈ ls, l.length = 60 ∧ ∀ x ∈ l, isSym x)
    (h1 : 1 ≤ last.length) (h60 : last.length ≤ 60) (hlast : ∀ x ∈ last, isSym x) :
    wellFormed (layout ls last) := by
  induction ls with
  | nil =>
    refine ⟨fun i hi => ?_, ?_⟩
    · have hi' : i < last.length := hi
      show if i % 61 = 60 then last.getD i 0 = 10 else isSym (last.getD i 0)
      rw [if_neg (by omega), List.getD_eq_getElem _ _ hi']
      exact hlast _ (List.getElem_mem _)
    · show last.length % 61 ≠ 0
      omega
  | cons l ls ih =>
    obtain ⟨hw, hne⟩ := ih (fun l' h' => hls l' (List.mem_cons_of_mem _ h'))
    obtain ⟨hl, hs⟩ := hls l (List.mem_cons_self _ _)
    refine ⟨wrappedAt60_line l _ hl hs hw, ?_⟩
    show (l ++ 10 :: layout ls last).length % 61 ≠ 0
    simp only [List.length_append, List.length_cons, hl]
    omega

theorem engineInput_of_wrapped (body : List Nat) (hw : wrappedAt60 body) : EngineInput body := by
  intro i hi
  have := hw i hi
  by_cases h : i % 61 = 60
  · rw [if_pos h] at this
    exact ⟨by omega, fun _ hn => absurd h hn⟩
  · rw [if_neg h] at this
    exact ⟨by have := isSym_lt this; omega, fun _ _ => this⟩

theorem engineInput_of_short (body : List Nat) (hs : body.length ≤ 60)
    (hb : ∀ b ∈ body, b < 256) : EngineInput body := by
  intro i hi
  refine ⟨?_, fun h => ?_⟩
  · rw [List.getD_eq_getElem _ _ hi]
    exact hb _ (List.getElem_mem _)
  · rw [Nat.mod_eq_of_lt (by omega)] at h
    omega

/-- C4: the complement table is total over the 256 byte values and
`map256[b] = swmap(b)` for every byte `b`; each of the 16 letters, in upper or
lower case, goes to the upper-case complement the specification lists, and
every other byte goes to the sentinel `_`. -/
theorem complement_table :
    map256.length = 256 ∧
    (∀ b, b < 256 → map256[b]? = some (swmap b)) ∧
    (∀ p ∈ complements, swmap p.1 = p.2 ∧ swmap (p.1 + 32) = p.2) ∧
    (∀ b, b < 256 → ¬ isSym b → swmap b = 95) ∧
    (∀ c ∈ letters, c ∈ complements.map (·.1)) := by
  refine ⟨by decide, by decide, by decide, by decide, by decide⟩

/-- C4, at the byte `g`: it is below 256, a symbol, and both tables give `C`. -/
theorem complement_table_witness : map256[103]? = some (swmap 103) ∧ swmap 103 = 67 :=
  ⟨complement_table.2.1 103 (by decide), by decide⟩

/-- C5, as the code has it: for every letter of the alphabet, in upper or lower
case, complementing its upper-case form twice gives the upper-case form
back, except for `U`, which comes back as `T` (`U -> A -> T`). -/
theorem swmap_involution (c : Nat) (h : isSym c) :
    swmap (swmap (uppercase c)) = if uppercase c = 85 then 84 else uppercase c := by
  have key : ∀ c, c < 256 → isSym c →
      swmap (swmap (uppercase c)) = if uppercase c = 85 then 84 else uppercase c := by
    decide
  exact key c (by have := isSym_lt h; omega) h

/-- C5 at the letter `g`: complementing `G` twice gives `G`. -/
theorem swmap_involution_witness : isSym 103 ∧ swmap (swmap (uppercase 103)) = 71 :=
  ⟨by decide, swmap_involution 103 (by decide)⟩

/-- C5 fails at the letter `U`: it is a letter of the alphabet and
complementing it twice gives `T`. -/
theorem swmap_involution_fails_at_U :
    isSym 85 ∧ swmap (swmap (uppercase 85)) ≠ uppercase 85 := by
  decide

theorem fast_op_pairs_one (buf : Mem) (s : Cursor) :
    fast_op_pairs buf 1 s = rest_loop buf 2 s := by
  obtain ⟨l, h⟩ := map_lo_hi (buf (s.in_ - 2) % 256 + 256 * (buf (s.in_ - 2 + 1) % 256))
  have e1 : ((buf (s.in_ - 2) % 256 + 256 * (buf (s.in_ - 2 + 1) % 256)) >>> 8) % 256
      = buf (s.in_ - 2 + 1) % 256 := by
    rw [Nat.shiftRight_eq_div_pow]; omega
  have e2 : (buf (s.in_ - 2) % 256 + 256 * (buf (s.in_ - 2 + 1) % 256)) % 256
      = buf (s.in_ - 2) % 256 := by omega
  rw [e1] at l
  rw [e2] at h
  have i1 : s.in_ - 2 + 1 = s.in_ - 1 := by omega
  have i2 : s.in_ - 1 - 1 = s.in_ - 2 := by omega
  have i3 : s.out + 1 + 1 = s.out + 2 := by omega
  rw [i1] at l h
  simp only [fast_op_pairs, rest_loop, i1, i2, i3, l, h]

/-- C10: for every 16-bit index `it` the entry `map[it]` has low byte
`swmap(it >> 8)` and high byte `swmap(it & 0xff)`; so one step of the
two-byte loop of `fast_op`, on the adjacent source bytes `a`, `b`, writes
`swmap(b)` then `swmap(a)`, and leaves the cursor and the output buffer
exactly as two steps of the one-byte loop do. -/
theorem map_is_two_lookups :
    (∀ it, it < 65536 →
      map it % 256 = swmap (it >>> 8) ∧ map it / 256 = swmap (it &&& 0xff)) ∧
    (∀ (buf : Mem) (s : Cursor),
      (fast_op_pairs buf 1 s).outbuf s.out = swmap (buf (s.in_ - 1) % 256) ∧
      (fast_op_pairs buf 1 s).outbuf (s.out + 1) = swmap (buf (s.in_ - 2) % 256) ∧
      fast_op_pairs buf 1 s = rest_loop buf 2 s) := by
  refine ⟨fun it hit => ?_, fun buf s => ?_⟩
  · have h := map_lo_hi it
    have e1 : (it >>> 8) % 256 = it >>> 8 := by
      rw [Nat.shiftRight_eq_div_pow]; omega
    have e2 : it &&& 0xff = it % 256 := Nat.and_pow_two_sub_one_eq_mod it 8
    rw [e1] at h
    rw [e2]
    exact h
  · rw [fast_op_pairs_one]
    refine ⟨?_, ?_, rfl⟩
    · simp [rest_loop, Mem.store]
    · have i2 : s.in_ - 1 - 1 = s.in_ - 2 := by omega
      simp [rest_loop, Mem.store, i2]

/-- C10 at the index `0x4143` (the bytes `C`, `A` in memory): the entry is
`0x5447`, low byte `T` for `A`, high byte `G` for `C`. -/
theorem map_is_two_lookups_witness :
    map 0x4143 % 256 = swmap (0x4143 >>> 8) ∧ map 0x4143 / 256 = swmap (0x4143 &&& 0xff) :=
  map_is_two_lookups.1 0x4143 (by decide)

theorem symbols_map_swmap (l : List Nat) : symbols (l.map swmap) = l.map swmap := by
  unfold symbols
  rw [List.filter_eq_self]
  intro x hx
  obtain ⟨y, -, rfl⟩ := List.mem_map.mp hx
  simpa using swmap_ne_lf y

theorem lineBreaks_map_swmap (l : List Nat) : lineBreaks (l.map swmap) = 0 := by
  unfold lineBreaks
  exact List.count_eq_zero.mpr (lf_not_mem_map_swmap l)

theorem lineBreaks_append (a b : List Nat) : lineBreaks (a ++ b) = lineBreaks a + lineBreaks b := by
  simp [lineBreaks]

/-- The shape of the output: `length / 61` lines of 60 bytes that are no
line-breaks, then one line of `length % 61` such bytes. -/
theorem outBytes_shape (n : Nat) : ∀ body : List Nat, body.length = n →
    lineBreaks (outBytes body) = n / 61 + 1 ∧
    (symbols (outBytes body)).length = n - n / 61 ∧
    (lines (outBytes body)).map List.length = List.replicate (n / 61) 60 ++ [n % 61] := by
  induction n using Nat.strong_induction_on with
  | _ n ih =>
    intro body hn
    subst hn
    by_cases hs : body.length < 61
    · rw [outBytes_small body hs]
      have h0 : body.length / 61 = 0 := Nat.div_eq_of_lt hs
      have h1 : body.length % 61 = body.length := Nat.mod_eq_of_lt hs
      refine ⟨?_, ?_, ?_⟩
      · rw [lineBreaks_append, lineBreaks_map_swmap, h0]; rfl
      · rw [symbols_append, symbols_map_swmap, h0]
        simp [symbols]
      · rw [lines_append _ _ (lf_not_mem_map_swmap _), h0, h1]
        simp [lines]
    · have hm := Nat.mod_lt body.length (show 61 > 0 by omega)
      have hB : (body.take (body.length - 61)).length = body.length - 61 := by
        rw [List.length_take]; omega
      obtain ⟨i1, i2, i3⟩ := ih (body.length - 61) (by omega) _ hB
      have hd : (body.length - 61) / 61 = body.length / 61 - 1 := by omega
      have hr : (body.length - 61) % 61 = body.length % 61 := by omega
      have hk : 1 ≤ body.length / 61 := by omega
      rw [outBytes_peel body (by omega)]
      refine ⟨?_, ?_, ?_⟩
      · rw [lineBreaks_append, lineBreaks_append, lineBreaks_append, lineBreaks_map_swmap,
          lineBreaks_map_swmap, i1, hd]
        have : lineBreaks [10] = 1 := rfl
        omega
      · rw [symbols_append, symbols_append, symbols_append, symbols_map_swmap,
          symbols_map_swmap, List.length_append, List.length_append, List.length_append,
          i2, hd]
        have : (symbols [10]).length = 0 := rfl
        simp only [List.length_map, List.length_reverse, List.length_take, List.length_drop, this]
        omega
      · rw [List.append_assoc, List.append_assoc, ← List.append_assoc, List.singleton_append,
          ← List.map_append, lines_append _ _ (lf_not_mem_map_swmap _), List.map_cons, i3,
          hd, hr]
        have : List.replicate (body.length / 61) 60
            = 60 :: List.replicate (body.length / 61 - 1) 60 := by
          obtain ⟨k, hk'⟩ : ∃ k, body.length / 61 = k + 1 := ⟨body.length / 61 - 1, by omega⟩
          rw [hk']; rfl
        rw [this]
        simp only [List.length_map, List.length_append, List.length_reverse, List.length_take,
          List.length_drop, List.cons_append, List.cons.injEq, and_true]
        omega

theorem lineBreaks_wrapped (n : Nat) : ∀ body : List Nat, body.length = n → wrappedAt60 body →
    lineBreaks body = n / 61 := by
  induction n using Nat.strong_induction_on with
  | _ n ih =>
    intro body hn hw
    subst hn
    by_cases hs : body.length < 61
    · have h0 : body.length / 61 = 0 := Nat.div_eq_of_lt hs
      rw [h0]
      unfold lineBreaks
      refine List.count_eq_zero.mpr (fun h => ?_)
      exact isSym_ne_lf (wrapped_small body hw hs 10 h) rfl
    · obtain ⟨e, hX, hY, hB⟩ := wrapped_peel body hw (by omega)
      have hBl : (body.take (body.length - 61)).length = body.length - 61 := by
        rw [List.length_take]; omega
      have i1 := ih (body.length - 61) (by omega) _ hBl hB
      have hd : (body.length - 61) / 61 = body.length / 61 - 1 := by omega
      have hk : 1 ≤ body.length / 61 := by omega
      have cX : lineBreaks ((body.drop (body.length - 61)).take (60 - body.length % 61)) = 0 :=
        List.count_eq_zero.mpr (fun h => isSym_ne_lf (hX 10 h) rfl)
      have cY : lineBreaks (body.drop (body.length - body.length % 61)) = 0 :=
        List.count_eq_zero.mpr (fun h => isSym_ne_lf (hY 10 h) rfl)
      have c1 : lineBreaks [10] = 1 := rfl
      have := congrArg lineBreaks e
      rw [lineBreaks_append, lineBreaks_append, lineBreaks_append, cX, cY, i1, hd, c1] at this
      omega

theorem outBytes_eq_wrap60 (n : Nat) : ∀ body : List Nat, body.length = n → wellFormed body →
    outBytes body = wrap60 (reverseComplement body) := by
  induction n using Nat.strong_induction_on with
  | _ n ih =>
    intro body hn hwf
    subst hn
    obtain ⟨hw, hne⟩ := hwf
    unfold wrap60 reverseComplement
    by_cases hs : body.length < 61
    · rw [outBytes_small body hs, symbols_of_isSym body (wrapped_small body hw hs),
        wrapFrom_short _ 0 (by simp; omega)
          (Or.inl (by
            intro h
            have := congrArg List.length h
            simp only [List.length_map, List.length_reverse, List.length_nil] at this
            omega))]
    · obtain ⟨e, hX, hY, hB⟩ := wrapped_peel body hw (by omega)
      have hm := Nat.mod_lt body.length (show 61 > 0 by omega)
      have hBl : (body.take (body.length - 61)).length = body.length - 61 := by
        rw [List.length_take]; omega
      have i1 := ih (body.length - 61) (by omega) _ hBl ⟨hB, by rw [hBl]; omega⟩
      have hsym : symbols body = symbols (body.take (body.length - 61))
          ++ ((body.drop (body.length - 61)).take (60 - body.length % 61)
              ++ body.drop (body.length - body.length % 61)) := by
        conv_lhs => rw [e]
        rw [symbols_append, symbols_append, symbols_append, symbols_of_isSym _ hX,
          symbols_of_isSym _ hY]
        have : symbols [10] = [] := rfl
        rw [this]
        simp
      rw [outBytes_peel body (by omega), i1, hsym, List.reverse_append, List.map_append,
        List.reverse_append, List.map_append]
      unfold wrap60 reverseComplement
      rw [wrapFrom_full _ _ 0
        (by simp only [List.length_append, List.length_map, List.length_reverse,
              List.length_take, List.length_drop]; omega)
        (by
          intro h
          have := congrArg List.length h
          simp only [List.length_append, List.length_map, List.length_reverse,
              List.length_take, List.length_drop, List.length_nil] at this
          omega)]
      simp

/-- C1: for every body made of the 16 letters (either case), laid out as
zero or more lines of exactly 60 symbols each followed by one line-break and
a last line of 1 to 60 symbols without one, wherever the body sits in the
file and however long it is, `replace` writes exactly the symbols of the
body in reverse order, each replaced by its complement `swmap`, in lines of
60 symbols with one line-break after every line, the last one included. -/
theorem replace_reverse_complement (pre body post : List Nat)
    (hlen : (pre ++ body ++ post).length < 2 ^ 63) (hwf : wellFormed body) :
    replace (pre ++ body ++ post) ⟨pre.length, body.length⟩
      = some (wrap60 (reverseComplement body)) := by
  rw [replace_eq pre body post hlen (engineInput_of_wrapped body hwf.1),
    outBytes_eq_wrap60 _ body rfl hwf]

/-- C1 on the record `>x`, `ACGTT`: the body is well-formed and its reverse
complement `AACGT` is written, followed by a line-break. -/
theorem replace_reverse_complement_witness :
    wellFormed [65, 67, 71, 84, 84] ∧
    replace ([62, 120, 10] ++ [65, 67, 71, 84, 84] ++ [10]) ⟨3, 5⟩
      = some [65, 65, 67, 71, 84, 10] :=
  ⟨by decide,
   replace_reverse_complement [62, 120, 10] [65, 67, 71, 84, 84] [10] (by decide) (by decide)⟩

/-- C2, as the code has it: for every body of `L` bytes whose line-breaks
sit exactly after every 60 symbols (`L = 61 * k + m`, `0 <= m <= 60`, so
`k = L / 61` line-breaks), `replace` writes exactly `L - k` symbol bytes
and exactly `k + 1` line-break bytes; `k + 1` is `ceil((L - k) / 60)` when
the body does not end in a line-break (`m >= 1`), and 1 when `L = 0`. -/
theorem replace_counts (pre body post : List Nat)
    (hlen : (pre ++ body ++ post).length < 2 ^ 63) (hw : wrappedAt60 body) :
    lineBreaks body = body.length / 61 ∧
    ∃ out, replace (pre ++ body ++ post) ⟨pre.length, body.length⟩ = some out ∧
      (symbols out).length = body.length - body.length / 61 ∧
      lineBreaks out = body.length / 61 + 1 ∧
      (body.length % 61 ≠ 0 →
        lineBreaks out = (body.length - body.length / 61 + 59) / 60) ∧
      (body.length = 0 → lineBreaks out = 1) := by
  obtain ⟨h1, h2, -⟩ := outBytes_shape _ body rfl
  refine ⟨lineBreaks_wrapped _ body rfl hw, outBytes body,
    replace_eq pre body post hlen (engineInput_of_wrapped body hw), h2, h1, ?_, ?_⟩
  · intro hm
    rw [h1]
    omega
  · intro h0
    rw [h1, h0]

/-- C2 on the body of 60 `A`, a line-break and `CG`: 62 symbols and 2
line-breaks are written. -/
theorem replace_counts_witness :
    wrappedAt60 (List.replicate 60 65 ++ [10, 67, 71]) ∧
    ∃ out, replace ([] ++ (List.replicate 60 65 ++ [10, 67, 71]) ++ []) ⟨0, 63⟩ = some out ∧
      (symbols out).length = 62 ∧ lineBreaks out = 2 :=
  ⟨by decide,
   let ⟨out, h1, h2, h3, _⟩ :=
     (replace_counts [] (List.replicate 60 65 ++ [10, 67, 71]) [] (by decide) (by decide)).2
   ⟨out, h1, h2, h3⟩⟩

/-- C2 fails on the body of one full line that ends in its line-break
(`L = 61`, `k = 1`, `m = 0`): 60 symbols are written, `ceil(60 / 60) = 1`,
and yet 2 line-breaks are written. -/
theorem replace_counts_fails_on_full_line :
    wrappedAt60 (List.replicate 60 65 ++ [10]) ∧
    ∃ out, replace (List.replicate 60 65 ++ [10]) ⟨0, 61⟩ = some out ∧
      (symbols out).length = 61 - 1 ∧
      (61 - 1 + 59) / 60 = 1 ∧ lineBreaks out = 2 ∧ lineBreaks out ≠ (61 - 1 + 59) / 60 := by
  refine ⟨by decide, outBytes (List.replicate 60 65 ++ [10]), ?_, by decide, by decide,
    by decide, by decide⟩
  have := replace_eq [] (List.replicate 60 65 ++ [10]) [] (by decide)
    (engineInput_of_wrapped _ (by decide))
  simpa using this

/-- C3, as the code has it: for every body of `L` bytes whose line-breaks
sit exactly after every 60 symbols (`L = 61 * k + m`, `0 <= m <= 60`), what
`replace` writes is `k` lines of exactly 60 symbols and then a last line of
`m = L mod 61` symbols. When the body does not end in a line-break
(`m >= 1`), or is empty, that is `(L - k) mod 60` symbols, or 60 if that
remainder is 0 and `L - k > 0`. -/
theorem replace_line_widths (pre body post : List Nat)
    (hlen : (pre ++ body ++ post).length < 2 ^ 63) (hw : wrappedAt60 body) :
    ∃ out, replace (pre ++ body ++ post) ⟨pre.length, body.length⟩ = some out ∧
      (lines out).map List.length
        = List.replicate (body.length / 61) 60 ++ [body.length % 61] ∧
      (body.length % 61 ≠ 0 ∨ body.length = 0 →
        body.length % 61 =
          if (body.length - body.length / 61) % 60 = 0 ∧ 0 < body.length - body.length / 61
          then 60 else (body.length - body.length / 61) % 60) := by
  obtain ⟨-, -, h3⟩ := outBytes_shape _ body rfl
  refine ⟨outBytes body,
    replace_eq pre body post hlen (engineInput_of_wrapped body hw), h3, ?_⟩
  intro h
  split_ifs <;> omega

/-- C3 on a body of 60 `A`, a line-break and `CG`: a line of 60 symbols and a
last line of 2 are written. -/
theorem replace_line_widths_witness :
    wrappedAt60 (List.replicate 60 65 ++ [10, 67, 71]) ∧
    ∃ out, replace ([] ++ (List.replicate 60 65 ++ [10, 67, 71]) ++ []) ⟨0, 63⟩ = some out ∧
      (lines out).map List.length = [60, 2] :=
  ⟨by decide,
   let ⟨out, h1, h2, _⟩ :=
     replace_line_widths [] (List.replicate 60 65 ++ [10, 67, 71]) [] (by decide) (by decide)
   ⟨out, h1, h2⟩⟩

/-- C3 fails on the body of one full line that ends in its line-break
(`L = 61`, `k = 1`): `(L - k) mod 60 = 0` and `L - k > 0`, and yet the last
line written is empty instead of 60 symbols long. -/
theorem replace_line_widths_fails_on_full_line :
    wrappedAt60 (List.replicate 60 65 ++ [10]) ∧
    (61 - 1) % 60 = 0 ∧ 0 < 61 - 1 ∧
    ∃ out, replace (List.replicate 60 65 ++ [10]) ⟨0, 61⟩ = some out ∧
      (lines out).map List.length = [60, 0] := by
  refine ⟨by decide, by decide, by decide, outBytes (List.replicate 60 65 ++ [10]), ?_, by decide⟩
  have := replace_eq [] (List.replicate 60 65 ++ [10]) [] (by decide)
    (engineInput_of_wrapped _ (by decide))
  simpa using this

/-- C8: for every body of `n <= 60` bytes, wherever it sits in the file,
`replace` writes exactly `n + 1` bytes: byte `j` (`j < n`) is
`swmap(body[n - 1 - j])` and the last byte is a line-break. In particular
the body `ACGT` gives `ACGT\n` and the body `ACGTT` gives `AACGT\n`. -/
theorem replace_short_body :
    (∀ pre body post : List Nat, (pre ++ body ++ post).length < 2 ^ 63 →
      body.length ≤ 60 → (∀ b ∈ body, b < 256) →
      ∃ out, replace (pre ++ body ++ post) ⟨pre.length, body.length⟩ = some out ∧
        out.length = body.length + 1 ∧
        (∀ j, j < body.length → out.getD j 0 = swmap (body.getD (body.length - 1 - j) 0)) ∧
        out.getD body.length 0 = 10) ∧
    replace [65, 67, 71, 84] ⟨0, 4⟩ = some [65, 67, 71, 84, 10] ∧
    replace [65, 67, 71, 84, 84] ⟨0, 5⟩ = some [65, 65, 67, 71, 84, 10] := by
  refine ⟨?_, by decide, by decide⟩
  intro pre body post hlen hs hb
  refine ⟨outBytes body, replace_eq pre body post hlen (engineInput_of_short body hs hb),
    by simp [outBytes], ?_, ?_⟩
  · intro j hj
    unfold outBytes
    rw [List.getD_eq_getElem _ _ (by simp; omega), List.getElem_map, List.getElem_range]
    unfold outByte
    rw [if_neg (by omega), if_pos (by omega)]
    rfl
  · unfold outBytes
    rw [List.getD_eq_getElem _ _ (by simp), List.getElem_map, List.getElem_range]
    exact outByte_length body

/-- C8 on the body `ACGTT` after the header `>x`: six bytes are written,
`A`, `A`, `C`, `G`, `T` and a line-break. -/
theorem replace_short_body_witness :
    ∃ out, replace ([62, 120, 10] ++ [65, 67, 71, 84, 84] ++ [10]) ⟨3, 5⟩ = some out ∧
      out.length = 6 ∧ out.getD 0 0 = swmap 84 ∧ out.getD 5 0 = 10 :=
  let ⟨out, h1, h2, h3, h4⟩ :=
    replace_short_body.1 [62, 120, 10] [65, 67, 71, 84, 84] [10] (by decide) (by decide)
      (by decide)
  ⟨out, h1, h2, h3 0 (by decide), h4⟩

theorem outBytes_eq_concat (body : List Nat) :
    outBytes body = (List.range body.length).map (outByte body) ++ [10] := by
  unfold outBytes
  rw [List.range_succ, List.map_append]
  simp [outByte_length]

theorem isSym_swmap {c : Nat} (h : isSym c) : isSym (swmap c) := by
  have key : ∀ c, c < 256 → isSym c → isSym (swmap c) := by decide
  exact key c (by have := isSym_lt h; omega) h

theorem wellFormed_dropLast_outBytes (body : List Nat) (hwf : wellFormed body) :
    wellFormed ((List.range body.length).map (outByte body)) := by
  obtain ⟨hw, hne⟩ := hwf
  have hm := Nat.mod_lt body.length (show 61 > 0 by omega)
  refine ⟨fun p hp => ?_, by simpa using hne⟩
  simp only [List.length_map, List.length_range] at hp
  rw [List.getD_eq_getElem _ _ (by simpa using hp), List.getElem_map, List.getElem_range]
  unfold outByte
  by_cases h60 : p % 61 = 60
  · rw [if_pos h60, if_pos (Or.inr h60)]
  · rw [if_neg h60, if_neg (by omega)]
    apply isSym_swmap
    have := hw (body.length - 1 - p - if p % 61 < body.length % 61 then 0 else 1)
      (by split_ifs <;> omega)
    rwa [if_neg (by split_ifs <;> omega)] at this

theorem symbols_cons (c : Nat) (l : List Nat) (hc : c ≠ 10) :
    symbols (c :: l) = c :: symbols l := by
  simp [symbols, hc]

theorem symbols_cons_lf (l : List Nat) : symbols (10 :: l) = symbols l := by
  simp [symbols]

theorem symbols_wrapFrom (l : List Nat) : ∀ col, 10 ∉ l → symbols (wrapFrom 60 col l) = l := by
  induction l with
  | nil =>
    intro col _
    unfold wrapFrom
    split_ifs <;> rfl
  | cons c cs ih =>
    intro col h
    have hc : c ≠ 10 := fun e => h (by simp [e])
    have hcs : 10 ∉ cs := fun e => h (by simp [e])
    unfold wrapFrom
    split_ifs
    · rw [symbols_cons _ _ hc, symbols_cons_lf, ih 0 hcs]
    · rw [symbols_cons _ _ hc, ih (col + 1) hcs]

theorem swmap_swmap_letter : ∀ c ∈ letters, c ≠ 85 → swmap (swmap c) = c := by
  decide

/-- C6, as the code has it: for every well-formed body, applying `replace`,
dropping the last line-break of what it wrote and applying `replace` to
that, writes the symbols of the body with each one complemented twice: the
upper-case form of the symbol, except for `U` and `u`, which become `T`. So
the symbols of a body of upper-case letters other than `U` come back
unchanged. -/
theorem replace_twice (pre body post : List Nat)
    (hlen : (pre ++ body ++ post).length < 2 ^ 63) (hwf : wellFormed body) :
    ∃ o1 o2, replace (pre ++ body ++ post) ⟨pre.length, body.length⟩ = some o1 ∧
      replace o1.dropLast ⟨0, o1.dropLast.length⟩ = some o2 ∧
      symbols o2 = (symbols body).map (fun c => swmap (swmap c)) ∧
      ((∀ c ∈ symbols body, c ∈ letters ∧ c ≠ 85) → symbols o2 = symbols body) := by
  have h1 := replace_eq pre body post hlen (engineInput_of_wrapped body hwf.1)
  have hd : (outBytes body).dropLast = (List.range body.length).map (outByte body) := by
    rw [outBytes_eq_concat, List.dropLast_concat]
  have hwf2 := wellFormed_dropLast_outBytes body hwf
  have hl2 : ([] ++ (List.range body.length).map (outByte body) ++ []).length < 2 ^ 63 := by
    simp only [List.length_append] at hlen
    simp
    omega
  have h2 := replace_eq [] _ [] hl2 (engineInput_of_wrapped _ hwf2.1)
  simp only [List.nil_append, List.append_nil, List.length_nil] at h2
  have hs1 : symbols ((List.range body.length).map (outByte body)) = reverseComplement body := by
    have e := outBytes_eq_wrap60 _ body rfl hwf
    rw [outBytes_eq_concat] at e
    have e' := congrArg symbols e
    rw [symbols_append] at e'
    have : symbols [10] = [] := rfl
    rw [this, List.append_nil] at e'
    rw [e']
    exact symbols_wrapFrom _ 0 (lf_not_mem_map_swmap _)
  have hs2 : symbols (outBytes ((List.range body.length).map (outByte body)))
      = (symbols body).map (fun c => swmap (swmap c)) := by
    rw [outBytes_eq_wrap60 _ _ rfl hwf2]
    have e : symbols (wrap60 (reverseComplement ((List.range body.length).map (outByte body))))
        = reverseComplement ((List.range body.length).map (outByte body)) :=
      symbols_wrapFrom _ 0 (lf_not_mem_map_swmap _)
    rw [e]
    unfold reverseComplement
    rw [hs1]
    unfold reverseComplement
    rw [← List.map_reverse, List.reverse_reverse, List.map_map]
    rfl
  refine ⟨outBytes body, outBytes ((List.range body.length).map (outByte body)), h1, ?_, hs2, ?_⟩
  · rw [hd]; exact h2
  · intro hall
    rw [hs2]
    conv_rhs => rw [← List.map_id (symbols body)]
    apply List.map_congr_left
    intro c hc
    exact swmap_swmap_letter c (hall c hc).1 (hall c hc).2

/-- C6 on the body `ACGTT`: the two passes write `AACGT\n` and then `ACGTT\n`. -/
theorem replace_twice_witness :
    wellFormed [65, 67, 71, 84, 84] ∧
    ∃ o1 o2, replace ([] ++ [65, 67, 71, 84, 84] ++ []) ⟨0, 5⟩ = some o1 ∧
      replace o1.dropLast ⟨0, o1.dropLast.length⟩ = some o2 ∧
      symbols o2 = [65, 67, 71, 84, 84] :=
  ⟨by decide,
   let ⟨o1, o2, h1, h2, _, h4⟩ :=
     replace_twice [] [65, 67, 71, 84, 84] [] (by decide) (by decide)
   ⟨o1, o2, h1, h2, h4 (by decide)⟩⟩

/-- C6 fails on the body `U`: the first pass writes `A\n`, the second pass,
on `A`, writes `T\n`, whose symbol is not the `U` of the body. -/
theorem replace_twice_fails_on_U :
    wellFormed [85] ∧
    ∃ o1 o2, replace [85] ⟨0, 1⟩ = some o1 ∧
      replace o1.dropLast ⟨0, o1.dropLast.length⟩ = some o2 ∧
      symbols o2 ≠ symbols [85] :=
  ⟨by decide, [65, 10], [84, 10], by decide, by decide, by decide⟩

/-- C7 fails on the body of 30 `A`, the digit `1`, 29 `A`, a line-break and
`A`: symbol 30 of the 61 symbols is the digit, the 16-byte step reads it,
and the mirrored symbol 30 of the output is the byte 0, not `_`; in a body
of less than 61 bytes, handled byte by byte, the digit does become `_`. -/
theorem replace_digit_in_wide_step :
    (symbols (List.replicate 30 65 ++ [49] ++ List.replicate 29 65 ++ [10, 65])).getD 30 7 = 49 ∧
    (∃ out, replace (List.replicate 30 65 ++ [49] ++ List.replicate 29 65 ++ [10, 65]) ⟨0, 62⟩
        = some out ∧
      (symbols out).length = 61 ∧ (symbols out).getD (61 - 1 - 30) 7 = 0) ∧
    replace [65, 49, 67] ⟨0, 3⟩ = some [71, 95, 84, 10] := by
  refine ⟨by decide, ?_, by decide⟩
  have h : replace (List.replicate 30 65 ++ [49] ++ List.replicate 29 65 ++ [10, 65]) ⟨0, 62⟩
      = some (List.replicate 30 84 ++ [0] ++ List.replicate 29 84 ++ [10, 84, 10]) := by
    decide
  exact ⟨_, h, by decide, by decide⟩

theorem Mem.length_read (m : Mem) (n : Nat) : (m.read n).length = n := by
  simp [Mem.read]

theorem blocks_loop_length (file : List Nat) (r : range) (off : Int) (todo : Nat) :
    ∀ (n : Nat) (p q : Progress), blocks_loop file r off todo n p = some q →
      q.written.length = p.written.length + todo * block_size := by
  induction todo with
  | zero =>
    intro n p q h
    simp only [blocks_loop, Option.some.injEq] at h
    subst h
    simp
  | succ todo ih =>
    intro n p q h
    simp only [blocks_loop, Option.bind_eq_bind] at h
    cases hb : block_loop (pread file p.buf block_size
        ((r.begin + r.size + 2 ^ 64 - n * block_size % 2 ^ 64) % 2 ^ 64)) off (block_size + 1)
        block_size 0 p.outbuf with
    | none => rw [hb] at h; simp at h
    | some ob =>
      rw [hb, Option.some_bind] at h
      have := ih _ _ _ h
      rw [this]
      simp only [List.length_append, Mem.length_read]
      ring

/-- Whatever the bytes of the file, `replace` writes one byte more than the
size of the range it is given. -/
theorem replace_length (file : List Nat) (r : range) (out : List Nat)
    (h : replace file r = some out) : out.length = r.size + 1 := by
  simp only [replace, Option.bind_eq_bind, Option.pure_def] at h
  cases hb : blocks_loop file r ((60 - r.size % 61 : Nat) : Int) (r.size / block_size) 1
      ⟨fun _ => 0, fun _ => 0, []⟩ with
  | none => rw [hb] at h; simp at h
  | some p =>
    rw [hb, Option.some_bind] at h
    have hp := blocks_loop_length _ _ _ _ _ _ _ hb
    cases hl : lines_loop (pread file p.buf (r.size - r.size / block_size * block_size) r.begin)
        ((60 - r.size % 61 : Nat) : Int)
        ((r.size - r.size / block_size * block_size) / line_size)
        ⟨((r.size - r.size / block_size * block_size : Nat) : Int), 0, p.outbuf⟩ with
    | none => rw [hl] at h; simp at h
    | some s =>
      rw [hl, Option.some_bind, Option.some.injEq] at h
      subst h
      simp only [List.length_append, Mem.length_read, hp, List.length_nil, List.length_cons]
      have := Nat.div_mul_le_self r.size block_size
      omega

/-- C9 fails on the file `>a`, `>b`, `AC` and on the file `>a`: the header
`>a` is followed at once by the next `>`, or by the end of the file, and the
body range that `next_group` computes starts at offset 3 with size
`3 - 2 - 2` taken in `size_t`, which is `2 ^ 64 - 1` and not 0; on that range
`replace` does not write just one line-break. -/
theorem next_group_empty_body :
    next_group [62, 97, 10, 62, 98, 10, 65, 67, 10] 0
      = some ((⟨0, 3⟩, ⟨3, 2 ^ 64 - 1⟩), 3) ∧
    next_group [62, 97, 10] 0 = some ((⟨0, 3⟩, ⟨3, 2 ^ 64 - 1⟩), 3) ∧
    replace [62, 97, 10, 62, 98, 10, 65, 67, 10] ⟨3, 2 ^ 64 - 1⟩ ≠ some [10] ∧
    replace [62, 97, 10] ⟨3, 2 ^ 64 - 1⟩ ≠ some [10] := by
  refine ⟨by decide, by decide, fun h => ?_, fun h => ?_⟩
  · have := replace_length _ _ _ h
    simp at this
  · have := replace_length _ _ _ h
    simp at this

/-! ## The records -/

theorem indexOf_first (c : Nat) (l : List Nat) : ∀ j, j < l.indexOf c → l.getD j 0 ≠ c := by
  induction l with
  | nil => intro j h; simp at h
  | cons a l ih =>
    intro j h
    by_cases ha : a = c
    · rw [List.indexOf_cons_eq _ ha] at h
      omega
    · rw [List.indexOf_cons_ne _ ha] at h
      cases j with
      | zero => simpa using ha
      | succ j =>
        rw [List.getD_cons_succ]
        exact ih j (by omega)

theorem sv_find_first_of_spec (s : List Nat) (c : Nat) :
    (sv_find_first_of s c = npos ∧ c ∉ s) ∨
    (sv_find_first_of s c < s.length ∧ s.getD (sv_find_first_of s c) 0 = c ∧
      ∀ j, j < sv_find_first_of s c → s.getD j 0 ≠ c) := by
  unfold sv_find_first_of
  by_cases h : s.indexOf c < s.length
  · rw [if_pos h]
    refine Or.inr ⟨h, ?_, indexOf_first c s⟩
    rw [List.getD_eq_getElem _ _ h]
    exact List.getElem_indexOf h
  · rw [if_neg h]
    exact Or.inl ⟨rfl, fun hm => h (List.indexOf_lt_length.mpr hm)⟩

theorem find_first_of_loop_found (file : List Nat) (c : Nat) (fuel : Nat) :
    ∀ pos endfile ret ef, find_first_of_loop file c fuel pos endfile = some (ret, ef) →
      ret ≠ npos →
      pos ≤ ret ∧ ret < file.length ∧ file.getD ret 0 = c ∧
        (∀ j, pos ≤ j → j < ret → file.getD j 0 ≠ c) ∧ ef = endfile ∧ ret < 2 ^ 63 + 2 ^ 15 := by
  induction fuel with
  | zero => intro pos endfile ret ef h; simp [find_first_of_loop] at h
  | succ fuel ih =>
    intro pos endfile ret ef h hret
    have hnpos : npos = 2 ^ 64 - 1 := rfl
    unfold find_first_of_loop at h
    by_cases hp : 2 ^ 63 ≤ pos
    · rw [if_pos hp] at h; simp at h
    · rw [if_neg hp] at h
      simp only at h
      have hlen : ((file.drop pos).take (1024 * 32)).length = min (1024 * 32) (file.length - pos) := by
        rw [List.length_take, List.length_drop]
      by_cases hb : ((file.drop pos).take (1024 * 32)).length = 0
      · rw [if_pos hb] at h
        simp only [Option.some.injEq, Prod.mk.injEq] at h
        exact absurd h.1.symm hret
      · rw [if_neg hb] at h
        rcases sv_find_first_of_spec ((file.drop pos).take (1024 * 32)) c
          with ⟨e, hno⟩ | ⟨hlt, hget, hfirst⟩
        · rw [e, if_neg (by simp)] at h
          have hpos : (pos + ((file.drop pos).take (1024 * 32)).length) % 2 ^ 64
              = pos + ((file.drop pos).take (1024 * 32)).length := by
            rw [hlen]; omega
          rw [hpos] at h
          obtain ⟨a1, a2, a3, a4, a5, a6⟩ := ih _ _ _ _ h hret
          refine ⟨by omega, a2, a3, fun j hj1 hj2 => ?_, a5, a6⟩
          by_cases hj : j < pos + ((file.drop pos).take (1024 * 32)).length
          · intro hc
            apply hno
            have hjl : j - pos < ((file.drop pos).take (1024 * 32)).length := by omega
            have : ((file.drop pos).take (1024 * 32)).getD (j - pos) 0 = c := by
              rw [getD_take' _ _ _ (by rw [hlen] at hjl; omega), getD_drop']
              rw [show pos + (j - pos) = j by omega]
              exact hc
            rw [← this, List.getD_eq_getElem _ _ hjl]
            exact List.getElem_mem _
          · exact a4 j (by omega) hj2
        · have hne : sv_find_first_of ((file.drop pos).take (1024 * 32)) c ≠ npos := by
            rw [hlen] at hlt; rw [hnpos]; omega
          rw [if_pos hne] at h
          simp only [Option.some.injEq, Prod.mk.injEq] at h
          obtain ⟨h1, h2⟩ := h
          have hlt' := hlt
          rw [hlen] at hlt'
          have hmod : (pos + sv_find_first_of ((file.drop pos).take (1024 * 32)) c) % 2 ^ 64
              = pos + sv_find_first_of ((file.drop pos).take (1024 * 32)) c := by omega
          rw [hmod] at h1
          subst h1
          refine ⟨by omega, by omega, ?_, fun j hj1 hj2 => ?_, h2.symm, by omega⟩
          · rw [getD_take' _ _ _ (by omega), getD_drop'] at hget
            exact hget
          · have := hfirst (j - pos) (by omega)
            rw [getD_take' _ _ _ (by omega), getD_drop', show pos + (j - pos) = j by omega] at this
            exact this

theorem find_first_of_found (file : List Nat) (c pos endfile ret ef : Nat)
    (h : find_first_of file c pos endfile = some (ret, ef)) (hret : ret ≠ npos) :
    pos ≤ ret ∧ ret < file.length ∧ file.getD ret 0 = c ∧
      (∀ j, pos ≤ j → j < ret → file.getD j 0 ≠ c) ∧ ef = endfile ∧ ret < 2 ^ 63 + 2 ^ 15 := by
  unfold find_first_of at h
  by_cases hp : pos = npos
  · rw [if_pos hp] at h
    simp only [Option.some.injEq, Prod.mk.injEq] at h
    exact absurd (h.1.symm.trans hp) hret
  · rw [if_neg hp] at h
    exact find_first_of_loop_found file c _ _ _ _ _ h hret

theorem next_group_cases (file : List Nat) (prev : Nat) (hdr body : range) (prev' : Nat)
    (h : next_group file prev = some ((hdr, body), prev'))
    (hrec : (hdr, body) ≠ (⟨0, 0⟩, ⟨0, 0⟩)) :
    ∃ arrow_pos ef1 begin_pos ef2,
      find_first_of file 62 prev 0 = some (arrow_pos, ef1) ∧
      find_first_of file 10 arrow_pos ef1 = some (begin_pos, ef2) ∧
      begin_pos ≠ npos ∧
      hdr = ⟨arrow_pos, (begin_pos + 2 ^ 64 - arrow_pos + 1) % 2 ^ 64⟩ ∧
      body.begin = (begin_pos + 1) % 2 ^ 64 := by
  simp only [next_group] at h
  cases h1 : find_first_of file 62 prev 0 with
  | none => rw [h1] at h; simp at h
  | some p1 =>
    obtain ⟨arrow_pos, ef1⟩ := p1
    rw [h1] at h
    simp only [Option.bind_eq_bind, Option.some_bind] at h
    cases h2 : find_first_of file 10 arrow_pos ef1 with
    | none => rw [h2] at h; simp at h
    | some p2 =>
      obtain ⟨begin_pos, ef2⟩ := p2
      rw [h2] at h
      simp only [Option.some_bind] at h
      by_cases hb : begin_pos = npos
      · rw [if_pos hb] at h
        simp only [Option.pure_def, Option.some.injEq, Prod.mk.injEq] at h
        exact absurd (by rw [← h.1.1, ← h.1.2]) hrec
      · rw [if_neg hb] at h
        cases h3 : find_first_of file 62 begin_pos ef2 with
        | none => rw [h3] at h; simp at h
        | some p3 =>
          obtain ⟨found, ef3⟩ := p3
          rw [h3] at h
          simp only [Option.bind_eq_bind, Option.some_bind, Option.pure_def, Option.some.injEq,
            Prod.mk.injEq] at h
          refine ⟨arrow_pos, ef1, begin_pos, ef2, rfl, h2, hb, h.1.1.symm, ?_⟩
          rw [← h.1.2]

/-- C11: for every file and every record that `next_group` returns, from
whatever position `prev` the search starts, the header range starts at a `>`
byte, at or after `prev`, and ends with the first line-break after it, that
line-break included; the body range begins right where the header ends,
`body.begin = header.begin + header.size`, so the header lies before the
body and the two do not overlap. -/
theorem next_group_record (file : List Nat) (prev : Nat) (hdr body : range) (prev' : Nat)
    (h : next_group file prev = some ((hdr, body), prev'))
    (hrec : (hdr, body) ≠ (⟨0, 0⟩, ⟨0, 0⟩)) :
    prev ≤ hdr.begin ∧ file.getD hdr.begin 0 = 62 ∧
    1 ≤ hdr.size ∧ hdr.begin + hdr.size ≤ file.length ∧
    file.getD (hdr.begin + hdr.size - 1) 0 = 10 ∧
    (∀ j, hdr.begin ≤ j → j < hdr.begin + hdr.size - 1 → file.getD j 0 ≠ 10) ∧
    body.begin = hdr.begin + hdr.size := by
  obtain ⟨arrow_pos, ef1, begin_pos, ef2, h1, h2, hb, rfl, hbody⟩ :=
    next_group_cases file prev hdr body prev' h hrec
  have ha : arrow_pos ≠ npos := by
    intro e
    rw [e] at h2
    simp only [find_first_of, if_true, Option.some.injEq, Prod.mk.injEq] at h2
    exact hb h2.1.symm
  obtain ⟨a1, a2, a3, -, -, a6⟩ := find_first_of_found file 62 prev 0 arrow_pos ef1 h1 ha
  obtain ⟨b1, b2, b3, b4, -, b6⟩ := find_first_of_found file 10 arrow_pos ef1 begin_pos ef2 h2 hb
  have hs : (begin_pos + 2 ^ 64 - arrow_pos + 1) % 2 ^ 64 = begin_pos - arrow_pos + 1 := by
    omega
  have hbg : (begin_pos + 1) % 2 ^ 64 = begin_pos + 1 := by omega
  simp only [hs]
  rw [hbody, hbg]
  have e1 : arrow_pos + (begin_pos - arrow_pos + 1) - 1 = begin_pos := by omega
  refine ⟨a1, a3, by omega, by omega, by rw [e1]; exact b3, fun j hj1 hj2 => ?_, by omega⟩
  exact b4 j hj1 (by omega)

/-- C11 on the file `xx`, `>a`, `AC`: the record returned is the header at
offset 3, of size 3, and the body at offset 6. -/
theorem next_group_record_witness :
    next_group [120, 120, 10, 62, 97, 10, 65, 67, 10] 0 = some ((⟨3, 3⟩, ⟨6, 2⟩), 9) ∧
    [120, 120, 10, 62, 97, 10, 65, 67, 10].getD 3 0 = 62 ∧
    [120, 120, 10, 62, 97, 10, 65, 67, 10].getD (3 + 3 - 1) 0 = 10 ∧
    (6 : Nat) = 3 + 3 :=
  have h := next_group_record [120, 120, 10, 62, 97, 10, 65, 67, 10] 0 ⟨3, 3⟩ ⟨6, 2⟩ 9
    (by decide) (by decide)
  ⟨by decide, h.2.1, h.2.2.2.2.1, h.2.2.2.2.2.2⟩

theorem find_first_of_loop_total (file : List Nat) (c : Nat) (hlen : file.length < 2 ^ 63)
    (fuel : Nat) : ∀ pos endfile, pos ≤ file.length → file.length - pos < fuel →
      ∃ res, find_first_of_loop file c fuel pos endfile = some res := by
  induction fuel with
  | zero => intro pos endfile _ h; omega
  | succ fuel ih =>
    intro pos endfile hp hf
    have hl : ((file.drop pos).take (1024 * 32)).length = min (1024 * 32) (file.length - pos) := by
      rw [List.length_take, List.length_drop]
    unfold find_first_of_loop
    rw [if_neg (by omega)]
    simp only
    split_ifs with h1 h2
    · exact ⟨_, rfl⟩
    · exact ⟨_, rfl⟩
    · have e : (pos + ((file.drop pos).take (1024 * 32)).length) % 2 ^ 64
          = pos + ((file.drop pos).take (1024 * 32)).length := by
        rw [hl]; omega
      rw [e]
      exact ih _ _ (by rw [hl]; omega) (by rw [hl] at h1 ⊢; omega)

theorem find_first_of_total (file : List Nat) (c : Nat) (hlen : file.length < 2 ^ 63)
    (pos endfile : Nat) (hp : pos ≤ file.length ∨ pos = npos) :
    ∃ res, find_first_of file c pos endfile = some res := by
  unfold find_first_of
  split_ifs with h
  · exact ⟨_, rfl⟩
  · exact find_first_of_loop_total file c hlen _ _ _ (by tauto) (by omega)

/-- On a file that `pread` can address, and from a position inside it,
`next_group` returns. -/
theorem next_group_total (file : List Nat) (hlen : file.length < 2 ^ 63) (prev : Nat)
    (hp : prev ≤ file.length) : ∃ res, next_group file prev = some res := by
  obtain ⟨⟨arrow_pos, ef1⟩, h1⟩ := find_first_of_total file 62 hlen prev 0 (Or.inl hp)
  have ha : arrow_pos ≤ file.length ∨ arrow_pos = npos := by
    by_cases e : arrow_pos = npos
    · exact Or.inr e
    · exact Or.inl (le_of_lt (find_first_of_found file 62 prev 0 arrow_pos ef1 h1 e).2.1)
  obtain ⟨⟨begin_pos, ef2⟩, h2⟩ := find_first_of_total file 10 hlen arrow_pos ef1 ha
  simp only [next_group, h1, h2, Option.bind_eq_bind, Option.some_bind]
  split_ifs with hb
  · exact ⟨_, rfl⟩
  · have hbl := (find_first_of_found file 10 arrow_pos ef1 begin_pos ef2 h2 hb).2.1
    obtain ⟨⟨found, ef3⟩, h3⟩ := find_first_of_total file 62 hlen begin_pos ef2
      (Or.inl (le_of_lt hbl))
    simp only [h3, Option.some_bind]
    exact ⟨_, rfl⟩

/-! ## The two tables of the 16-byte step -/

theorem reverse_complement_reg_eq (buf : Mem) (in_ : Int) :
    reverse_complement_reg buf in_
      = mm_or_si128 (lt16_vals (masked_reg buf in_)) (g16_vals (masked_reg buf in_)) := rfl

theorem packed_lane (c i : Nat) (hi : i < 16) : packed c i = c := by
  interval_cases i <;> rfl

theorem masked_reg_lane (buf : Mem) (p : Int) (i : Nat) (hi : i < 16) :
    masked_reg buf p i = (buf (p + ((15 - i : Nat) : Int)) % 256) &&& 0x1f := by
  have hm : mm_set_epi8 0 1 2 3 4 5 6 7 8 9 10 11 12 13 14 15 i = 15 - i := by
    interval_cases i <;> rfl
  have h1 : (15 - i) &&& 0x80 = 0 := by interval_cases i <;> rfl
  have h2 : (15 - i) &&& 0x0f = 15 - i := by interval_cases i <;> rfl
  simp only [masked_reg, mm_and_si128, mm_shuffle_epi8, mm_loadu_si128, packed_lane _ _ hi, hm,
    h1, h2]
  simp

theorem lt16_vals_lane (v : Reg) (i : Nat) (hi : i < 16) :
    lt16_vals v i = lt16_vals (fun _ => v i) 0 := by
  simp only [lt16_vals, mm_and_si128, mm_shuffle_epi8, mm_cmplt_epi8, packed_lane _ _ hi,
    packed_lane _ 0 (by omega)]

theorem g16_vals_lane (v : Reg) (i : Nat) (hi : i < 16) :
    g16_vals v i = g16_vals (fun _ => v i) 0 := by
  simp only [g16_vals, mm_sub_epi8, mm_shuffle_epi8, packed_lane _ _ hi,
    packed_lane _ 0 (by omega)]

theorem sse_tables_on_letters : ∀ c, c < 256 → isSym c →
    (c &&& 0x1f < 16 →
      lt16_vals (fun _ => c &&& 0x1f) 0 = swmap c ∧ g16_vals (fun _ => c &&& 0x1f) 0 = 0) ∧
    (16 ≤ c &&& 0x1f →
      lt16_vals (fun _ => c &&& 0x1f) 0 = 0 ∧ g16_vals (fun _ => c &&& 0x1f) 0 = swmap c) := by
  decide

theorem sse_tables_disjoint : ∀ c, c < 256 →
    lt16_vals (fun _ => c &&& 0x1f) 0 = 0 ∨ g16_vals (fun _ => c &&& 0x1f) 0 = 0 := by
  decide

/-- C16: in `reverse_complement_sse`, for every lane that holds one of the 16
letters `c`, in upper or lower case, the byte masked with `0x1f` is looked
up in the first table when it is below 16 and, less 16, in the second table
otherwise; the other table gives 0, and the OR of the two results is exactly
`swmap(c)`. The 16 letters fold to 16 distinct 5-bit indices, the same for
both cases of a letter. -/
theorem sse_lookup_on_letters (buf : Mem) (in_ : Int) (i : Nat) (hi : i < 16)
    (hs : isSym (buf (in_ + ((15 - i : Nat) : Int)))) :
    masked_reg buf in_ i = buf (in_ + ((15 - i : Nat) : Int)) &&& 0x1f ∧
    (masked_reg buf in_ i < 16 →
      lt16_vals (masked_reg buf in_) i = swmap (buf (in_ + ((15 - i : Nat) : Int))) ∧
      g16_vals (masked_reg buf in_) i = 0) ∧
    (16 ≤ masked_reg buf in_ i →
      lt16_vals (masked_reg buf in_) i = 0 ∧
      g16_vals (masked_reg buf in_) i = swmap (buf (in_ + ((15 - i : Nat) : Int)))) ∧
    (lt16_vals (masked_reg buf in_) i = 0 ∨ g16_vals (masked_reg buf in_) i = 0) ∧
    reverse_complement_reg buf in_ i = swmap (buf (in_ + ((15 - i : Nat) : Int))) ∧
    (letters.map (· &&& 0x1f)).Nodup ∧
    (∀ c ∈ letters, (c + 32) &&& 0x1f = c &&& 0x1f) := by
  have hlt : buf (in_ + ((15 - i : Nat) : Int)) < 256 := by have := isSym_lt hs; omega
  have hv : masked_reg buf in_ i = buf (in_ + ((15 - i : Nat) : Int)) &&& 0x1f := by
    rw [masked_reg_lane _ _ _ hi, Nat.mod_eq_of_lt hlt]
  have ht := sse_tables_on_letters _ hlt hs
  rw [lt16_vals_lane _ _ hi, g16_vals_lane _ _ hi, hv]
  refine ⟨rfl, ht.1, ht.2, sse_tables_disjoint _ hlt, ?_, by decide, by decide⟩
  rw [reverse_complement_reg_lane _ _ _ hi]
  exact sse_lane_of_isSym hs

/-- C16 on 16 bytes `g`: lane 0 folds to index 7, below 16, the first table
gives `C` and the second gives 0. -/
theorem sse_lookup_on_letters_witness :
    masked_reg (fun _ => 103) 0 0 = 7 ∧
    lt16_vals (masked_reg (fun _ => 103) 0) 0 = 67 ∧
    g16_vals (masked_reg (fun _ => 103) 0) 0 = 0 ∧
    reverse_complement_reg (fun _ => 103) 0 0 = swmap 103 :=
  have h := sse_lookup_on_letters (fun _ => 103) 0 0 (by decide) (by decide)
  ⟨h.1, (h.2.1 (by decide)).1, (h.2.1 (by decide)).2, h.2.2.2.2.1⟩

theorem sse_lane_lf : sse_lane 10 = 10 := by decide

/-- C13, as the code has it: `reverse_complement_sse` stores 16 bytes at
`out` and nothing else; byte `i` comes from input byte `15 - i` alone, and
when that byte is one of the 16 letters, in upper or lower case, it is
`map256[input[15 - i]] = swmap(input[15 - i])`, as in the scalar code; a
line-break byte is stored as a line-break. -/
theorem reverse_complement_sse_lanes (buf : Mem) (in_ : Int) (outbuf : Mem) (out : Int)
    (i : Nat) (hi : i < 16) :
    reverse_complement_sse buf in_ outbuf out (out + i)
      = sse_lane (buf (in_ + ((15 - i : Nat) : Int))) ∧
    (isSym (buf (in_ + ((15 - i : Nat) : Int))) →
      reverse_complement_sse buf in_ outbuf out (out + i)
        = swmap (buf (in_ + ((15 - i : Nat) : Int))) ∧
      map256[buf (in_ + ((15 - i : Nat) : Int))]?
        = some (swmap (buf (in_ + ((15 - i : Nat) : Int))))) ∧
    (buf (in_ + ((15 - i : Nat) : Int)) = 10 →
      reverse_complement_sse buf in_ outbuf out (out + i) = 10) ∧
    (∀ j, j < out ∨ out + 16 ≤ j → reverse_complement_sse buf in_ outbuf out j = outbuf j) := by
  have e : reverse_complement_sse buf in_ outbuf out (out + i)
      = sse_lane (buf (in_ + ((15 - i : Nat) : Int))) := by
    simp only [reverse_complement_sse, mm_storeu_si128]
    rw [if_pos (by omega), show (out + (i : Int) - out).toNat = i by omega,
      reverse_complement_reg_lane _ _ _ hi]
  refine ⟨e, fun hs => ⟨by rw [e]; exact sse_lane_of_isSym hs, ?_⟩, fun h10 => ?_, fun j hj => ?_⟩
  · have hlt : buf (in_ + ((15 - i : Nat) : Int)) < 256 := by have := isSym_lt hs; omega
    simp [map256, List.getElem?_range hlt, Nat.mod_eq_of_lt hlt]
  · rw [e, h10]; exact sse_lane_lf
  · simp only [reverse_complement_sse, mm_storeu_si128]
    rw [if_neg (by omega)]

/-- C13 on the 16 bytes `ACGTACGTACGTACGT`: byte 0 stored is the complement
`A` of the last byte `T`. -/
theorem reverse_complement_sse_lanes_witness :
    reverse_complement_sse (fun a => [65, 67, 71, 84].getD (a.toNat % 4) 0) 0 (fun _ => 0) 0 0
      = 65 :=
  ((reverse_complement_sse_lanes (fun a => [65, 67, 71, 84].getD (a.toNat % 4) 0) 0
      (fun _ => 0) 0 0 (by decide)).2.1 (by decide)).1

/-- C13 fails on 16 line-break bytes: byte 0 stored is a line-break, while
`map256` and `swmap` give `_` for a line-break. -/
theorem reverse_complement_sse_differs_on_lf :
    reverse_complement_sse (fun _ => 10) 0 (fun _ => 0) 0 0 = 10 ∧
    map256[10]? = some 95 ∧ swmap 10 = 95 ∧
    reverse_complement_sse (fun _ => 10) 0 (fun _ => 0) 0 0 ≠ swmap 10 := by
  decide

/-! ## The phase -/

theorem replace_phase (file : List Nat) (r : range) :
    replace file r = (do
      let nblock := r.size / block_size
      let tail := r.size - nblock * block_size
      let p ← blocks_loop file r (phase r.size) nblock 1
        { buf := fun _ => 0, outbuf := fun _ => 0, written := [] }
      let buf := pread file p.buf tail r.begin
      let s ← lines_loop buf (phase r.size) (tail / line_size)
        { in_ := tail, out := 0, outbuf := p.outbuf }
      let s := rest_loop buf (tail - (tail / line_size) * line_size) s
      pure (p.written ++ s.outbuf.read tail ++ [10])) := rfl

theorem takeWhile_all (l : List Nat) (h : ∀ x ∈ l, x ≠ 10) :
    l.takeWhile (· ≠ 10) = l := by
  induction l with
  | nil => rfl
  | cons a l ih =>
    have ha : a ≠ 10 := h a (List.mem_cons_self _ _)
    simp only [List.takeWhile_cons, ha, ne_eq, not_false_eq_true, decide_True, if_true]
    rw [show (List.takeWhile (fun x => decide (x ≠ 10)) l) = l from
      ih (fun x hx => h x (List.mem_cons_of_mem _ hx))]

theorem takeWhile_stop (l r : List Nat) (h : ∀ x ∈ l, x ≠ 10) :
    (l ++ 10 :: r).takeWhile (· ≠ 10) = l := by
  induction l with
  | nil => simp
  | cons a l ih =>
    have ha : a ≠ 10 := h a (List.mem_cons_self _ _)
    simp only [List.cons_append, List.takeWhile_cons, ha, ne_eq, not_false_eq_true, decide_True,
      if_true]
    rw [show (List.takeWhile (fun x => decide (x ≠ 10)) (l ++ 10 :: r)) = l from
      ih (fun x hx => h x (List.mem_cons_of_mem _ hx))]

theorem trailingSymbols_wrapped (body : List Nat) (hw : wrappedAt60 body) :
    trailingSymbols body = body.length % 61 := by
  unfold trailingSymbols
  by_cases hs : body.length < 61
  · rw [takeWhile_all _ (fun x hx => isSym_ne_lf (wrapped_small body hw hs x
      (List.mem_reverse.mp hx))), List.length_reverse, Nat.mod_eq_of_lt hs]
  · obtain ⟨e, -, hY, -⟩ := wrapped_peel body hw (by omega)
    have hm := Nat.mod_lt body.length (show 61 > 0 by omega)
    have hle := Nat.mod_le body.length 61
    have e' := congrArg List.reverse e
    rw [List.reverse_append, List.reverse_append, List.reverse_singleton,
      List.singleton_append] at e'
    rw [e', takeWhile_stop _ _ (fun x hx => isSym_ne_lf (hY x (List.mem_reverse.mp hx))),
      List.length_reverse, List.length_drop]
    omega

/-- C14, as the code has it: for every body wrapped at 60, `L mod 61` symbol
bytes lie between the end of the body and the first line-break met walking
backward from the end, and the phase `off = 60 - (L mod 61)` is 60 minus
that number; it is the number of symbol bytes before the line-break in the
last 61 bytes of the body. When `L` is an exact multiple of 61 the body
ends in a line-break and the phase is 60. -/
theorem phase_wrapped (body : List Nat) (hw : wrappedAt60 body) :
    trailingSymbols body = body.length % 61 ∧
    phase body.length = 60 - trailingSymbols body ∧
    (body.length % 61 = 0 → phase body.length = 60 ∧ trailingSymbols body = 0) ∧
    (61 ≤ body.length →
      body.getD (body.length - 61 + phase body.length) 0 = 10 ∧
      ∀ i, i < phase body.length → isSym (body.getD (body.length - 61 + i) 0)) := by
  have ht := trailingSymbols_wrapped body hw
  have hm := Nat.mod_lt body.length (show 61 > 0 by omega)
  refine ⟨ht, by rw [ht]; rfl, fun h0 => ⟨by unfold phase; omega, by omega⟩, fun hL => ?_⟩
  unfold phase
  constructor
  · have := hw (body.length - 61 + (60 - body.length % 61)) (by omega)
    rwa [if_pos (by omega)] at this
  · intro i hi
    have := hw (body.length - 61 + i) (by omega)
    rwa [if_neg (by omega)] at this

/-- C14 on the body of 60 `A`, a line-break and `CG`: 2 symbols lie after
the last line-break, the phase is 58, and byte 58 of the last 61 bytes is
the line-break. -/
theorem phase_wrapped_witness :
    wrappedAt60 (List.replicate 60 65 ++ [10, 67, 71]) ∧
    trailingSymbols (List.replicate 60 65 ++ [10, 67, 71]) = 2 ∧
    phase 63 = 60 - 2 ∧
    (List.replicate 60 65 ++ [10, 67, 71]).getD (63 - 61 + 58) 0 = 10 :=
  have h := phase_wrapped (List.replicate 60 65 ++ [10, 67, 71]) (by decide)
  ⟨by decide, h.1, by decide, (h.2.2.2 (by decide)).1⟩

/-- C14 fails on the body `ACGT`: it is well-formed, 4 symbol bytes lie
between its end and the first line-break met walking backward (there is
none), and the phase is 56. It fails too on the body of 60 `A` and a
line-break, of length 61: the phase is 60, not 0. -/
theorem phase_is_not_trailing_count :
    wellFormed [65, 67, 71, 84] ∧ trailingSymbols [65, 67, 71, 84] = 4 ∧
    phase [65, 67, 71, 84].length = 56 ∧
    phase [65, 67, 71, 84].length ≠ trailingSymbols [65, 67, 71, 84] ∧
    wrappedAt60 (List.replicate 60 65 ++ [10]) ∧
    (List.replicate 60 65 ++ [10]).length % 61 = 0 ∧
    phase (List.replicate 60 65 ++ [10]).length = 60 := by
  decide

/-! ## The accesses of `replace` stay inside its buffers -/

theorem fast_op_simd_log_fst (buf : Mem) (n : Nat) : ∀ s,
    (fast_op_simd_log buf n s).1 = fast_op_simd buf n s := by
  induction n with
  | zero => intro s; rfl
  | succ n ih => intro s; simp only [fast_op_simd_log, fast_op_simd, ih]

theorem fast_op_pairs_log_fst (buf : Mem) (n : Nat) : ∀ s,
    (fast_op_pairs_log buf n s).1 = fast_op_pairs buf n s := by
  induction n with
  | zero => intro s; rfl
  | succ n ih => intro s; simp only [fast_op_pairs_log, fast_op_pairs, ih]

theorem fast_op_log_fst (buf : Mem) (w : Int) (s : Cursor) :
    (fast_op_log buf w s).1 = fast_op buf w s := by
  simp only [fast_op_log, fast_op, fast_op_simd_log_fst, fast_op_pairs_log_fst]

theorem scalar_op_log_fst (buf : Mem) (s : Cursor) :
    (scalar_op_log buf s).1 = scalar_op buf s := by
  unfold scalar_op_log
  cases scalar_op buf s <;> rfl

theorem replace60_simd_log_fst (buf : Mem) (in_ : Int) (outbuf : Mem) (out offset : Int) :
    (replace60_simd_log buf in_ outbuf out offset).1
      = replace60_simd buf in_ outbuf out offset := by
  simp only [replace60_simd_log, replace60_simd, fast_op_log_fst]
  split_ifs with h
  · unfold scalar_op_log
    cases h2 : scalar_op buf (fast_op buf ((60 - offset).tdiv 2) ⟨in_, out, outbuf⟩) with
    | none => rfl
    | some s2 =>
      simp only [Option.bind_eq_bind, Option.some_bind]
      cases h3 : scalar_op buf ⟨s2.in_ - 1, s2.out, s2.outbuf⟩ with
      | none => rfl
      | some s3 => rfl
  · rfl

theorem Access.within_mono {rlo rhi wlo whi rlo' rhi' wlo' whi' : Int} {a : Access}
    (h : a.within rlo rhi wlo whi) (h1 : rlo' ≤ rlo) (h2 : rhi ≤ rhi') (h3 : wlo' ≤ wlo)
    (h4 : whi ≤ whi') : a.within rlo' rhi' wlo' whi' := by
  cases a with
  | load lo len => exact ⟨le_trans h1 h.1, le_trans h.2 h2⟩
  | store lo len => exact ⟨le_trans h3 h.1, le_trans h.2 h4⟩
  | pread c => exact h
  | write c => exact h

theorem fast_op_simd_pos (buf : Mem) (n : Nat) : ∀ s,
    (fast_op_simd buf n s).in_ = s.in_ - 16 * n ∧ (fast_op_simd buf n s).out = s.out + 16 * n := by
  induction n with
  | zero => intro s; simp [fast_op_simd]
  | succ n ih =>
    intro s
    obtain ⟨a, b⟩ := ih ⟨s.in_ - simd_width, s.out + simd_width,
      reverse_complement_sse buf (s.in_ - simd_width) s.outbuf s.out⟩
    have e : simd_width = 16 := rfl
    simp only [e] at a b
    simp only [fast_op_simd, e, a, b]
    constructor <;> (push_cast; omega)

theorem fast_op_pairs_pos (buf : Mem) (n : Nat) : ∀ s,
    (fast_op_pairs buf n s).in_ = s.in_ - 2 * n ∧ (fast_op_pairs buf n s).out = s.out + 2 * n := by
  induction n with
  | zero => intro s; simp [fast_op_pairs]
  | succ n ih =>
    intro s
    simp only [fast_op_pairs]
    obtain ⟨a, b⟩ := ih ⟨s.in_ - 2, s.out + 2,
      (s.outbuf.store s.out
        (map (buf (s.in_ - 2) % 256 + 256 * (buf (s.in_ - 2 + 1) % 256)) % 256)).store
        (s.out + 1) (map (buf (s.in_ - 2) % 256 + 256 * (buf (s.in_ - 2 + 1) % 256)) / 256)⟩
    simp only at a b
    rw [a, b]
    constructor <;> (push_cast; omega)

theorem fast_op_pos (buf : Mem) (w : Int) (hw : 0 ≤ w) (s : Cursor) :
    (fast_op buf w s).in_ = s.in_ - 2 * w ∧ (fast_op buf w s).out = s.out + 2 * w := by
  have e8 : simd_width.tdiv 2 = 8 := by decide
  have en : w.tdiv 8 = w / 8 := Int.tdiv_eq_ediv hw (by omega)
  obtain ⟨a1, b1⟩ := fast_op_simd_pos buf (w / 8).toNat s
  obtain ⟨a2, b2⟩ := fast_op_pairs_pos buf (w - 8 * (w / 8)).toNat
    (fast_op_simd buf (w / 8).toNat s)
  simp only [fast_op, e8, en]
  rw [a2, b2, a1, b1]
  constructor <;> omega

theorem fast_op_simd_log_within (buf : Mem) (n : Nat) : ∀ s,
    ∀ a ∈ (fast_op_simd_log buf n s).2,
      a.within (s.in_ - 16 * n) s.in_ s.out (s.out + 16 * n) := by
  induction n with
  | zero => intro s a h; simp [fast_op_simd_log] at h
  | succ n ih =>
    intro s a h
    have e : simd_width = 16 := rfl
    simp only [fast_op_simd_log, e, List.mem_cons] at h
    rcases h with rfl | rfl | h
    · exact ⟨by push_cast; omega, by push_cast; omega⟩
    · exact ⟨by omega, by push_cast; omega⟩
    · have := ih _ a h
      simp only at this
      exact Access.within_mono this (by push_cast; omega) (by omega) (by omega) (by push_cast; omega)

theorem fast_op_pairs_log_within (buf : Mem) (n : Nat) : ∀ s,
    ∀ a ∈ (fast_op_pairs_log buf n s).2,
      a.within (s.in_ - 2 * n) s.in_ s.out (s.out + 2 * n) := by
  induction n with
  | zero => intro s a h; simp [fast_op_pairs_log] at h
  | succ n ih =>
    intro s a h
    simp only [fast_op_pairs_log, List.mem_cons] at h
    rcases h with rfl | rfl | h
    · exact ⟨by push_cast; omega, by push_cast; omega⟩
    · exact ⟨by omega, by push_cast; omega⟩
    · have := ih _ a h
      simp only at this
      exact Access.within_mono this (by push_cast; omega) (by omega) (by omega) (by push_cast; omega)

theorem fast_op_log_within (buf : Mem) (w : Int) (hw : 0 ≤ w) (s : Cursor) :
    ∀ a ∈ (fast_op_log buf w s).2, a.within (s.in_ - 2 * w) s.in_ s.out (s.out + 2 * w) := by
  have e8 : simd_width.tdiv 2 = 8 := by decide
  have en : w.tdiv 8 = w / 8 := Int.tdiv_eq_ediv hw (by omega)
  obtain ⟨a1, b1⟩ := fast_op_simd_pos buf (w / 8).toNat s
  intro a h
  simp only [fast_op_log, e8, en, List.mem_append, fast_op_simd_log_fst] at h
  rcases h with h | h
  · exact Access.within_mono (fast_op_simd_log_within buf _ s a h) (by omega) (by omega) (by omega)
      (by omega)
  · have := fast_op_pairs_log_within buf _ _ a h
    rw [a1, b1] at this
    exact Access.within_mono this (by omega) (by omega) (by omega) (by omega)

theorem scalar_op_pos (buf : Mem) (s t : Cursor) (h : scalar_op buf s = some t) :
    t.in_ = s.in_ - 1 ∧ t.out = s.out + 1 := by
  simp only [scalar_op] at h
  cases hm : map256_at (toChar (buf (s.in_ - 1))) with
  | none => rw [hm] at h; simp at h
  | some v =>
    rw [hm] at h
    simp only [Option.bind_eq_bind, Option.some_bind, Option.pure_def, Option.some.injEq] at h
    subst h
    exact ⟨rfl, rfl⟩

theorem scalar_op_log_within (buf : Mem) (s : Cursor) :
    ∀ a ∈ (scalar_op_log buf s).2, a.within (s.in_ - 1) s.in_ s.out (s.out + 1) := by
  intro a h
  unfold scalar_op_log at h
  cases hs : scalar_op buf s with
  | none =>
    rw [hs] at h
    simp only [List.mem_singleton] at h
    subst h
    exact ⟨by omega, by push_cast; omega⟩
  | some t =>
    rw [hs] at h
    simp only [List.mem_cons, List.mem_singleton, List.not_mem_nil, or_false] at h
    rcases h with rfl | rfl
    · exact ⟨by omega, by push_cast; omega⟩
    · exact ⟨by omega, by push_cast; omega⟩

theorem replace60_simd_log_within (buf : Mem) (in_ : Int) (outbuf : Mem) (out offset : Int)
    (h0 : 0 ≤ offset) (h60 : offset ≤ 60) :
    ∀ a ∈ (replace60_simd_log buf in_ outbuf out offset).2,
      a.within (in_ - (60 - offset)) in_ out (out + 61) ∨
      a.within (in_ - 61) (in_ - (60 - offset) - 1) out (out + 61) := by
  have esize : (60 - offset).tdiv 2 = (60 - offset) / 2 := Int.tdiv_eq_ediv (by omega) (by omega)
  have emod : offset.tmod 2 = offset % 2 := Int.tmod_eq_emod h0 (by omega)
  have w1 := fast_op_log_within buf ((60 - offset) / 2) (by omega) ⟨in_, out, outbuf⟩
  obtain ⟨a1, b1⟩ := fast_op_pos buf ((60 - offset) / 2) (by omega) ⟨in_, out, outbuf⟩
  simp only at w1 a1 b1
  intro a h
  simp only [replace60_simd_log, esize, emod] at h
  rw [fast_op_log_fst] at h
  generalize fast_op buf ((60 - offset) / 2) ⟨in_, out, outbuf⟩ = s1 at h a1 b1
  generalize (fast_op_log buf ((60 - offset) / 2) ⟨in_, out, outbuf⟩).2 = l1 at h w1
  by_cases hodd : offset % 2 = 0
  · rw [if_neg (by omega)] at h
    have w4 := fast_op_log_within buf (30 - (60 - offset) / 2) (by omega)
      ⟨s1.in_ - 1, s1.out, s1.outbuf⟩
    obtain ⟨a4, b4⟩ := fast_op_pos buf (30 - (60 - offset) / 2) (by omega)
      ⟨s1.in_ - 1, s1.out, s1.outbuf⟩
    simp only at w4 a4 b4
    rw [fast_op_log_fst] at h
    simp only [List.mem_append, List.mem_singleton] at h
    rcases h with (h | h) | h
    · exact Or.inl (Access.within_mono (w1 a h) (by omega) (by omega) (by omega) (by omega))
    · have := w4 a h
      rw [a1, b1] at this
      exact Or.inr (Access.within_mono this (by omega) (by omega) (by omega) (by omega))
    · subst h
      rw [b4, b1]
      exact Or.inl ⟨by omega, by push_cast; omega⟩
  · rw [if_pos (by omega)] at h
    have w2 := scalar_op_log_within buf s1
    rw [a1, b1] at w2
    cases hs2 : scalar_op_log buf s1 with
    | mk o2 l2 =>
      rw [hs2] at h w2
      have e2 := scalar_op_log_fst buf s1
      rw [hs2] at e2
      cases o2 with
      | none =>
        simp only [List.mem_append] at h
        rcases h with h | h
        · exact Or.inl (Access.within_mono (w1 a h) (by omega) (by omega) (by omega) (by omega))
        · exact Or.inl (Access.within_mono (w2 a h) (by omega) (by omega) (by omega) (by omega))
      | some s2 =>
        obtain ⟨a2, b2⟩ := scalar_op_pos buf s1 s2 e2.symm
        have w3 := scalar_op_log_within buf ⟨s2.in_ - 1, s2.out, s2.outbuf⟩
        simp only at w3 h
        cases hs3 : scalar_op_log buf ⟨s2.in_ - 1, s2.out, s2.outbuf⟩ with
        | mk o3 l3 =>
          rw [hs3] at h w3
          rw [a2, b2, a1, b1] at w3
          have e3 := scalar_op_log_fst buf ⟨s2.in_ - 1, s2.out, s2.outbuf⟩
          rw [hs3] at e3
          cases o3 with
          | none =>
            simp only [List.mem_append] at h
            rcases h with (h | h) | h
            · exact Or.inl (Access.within_mono (w1 a h) (by omega) (by omega) (by omega)
                (by omega))
            · exact Or.inl (Access.within_mono (w2 a h) (by omega) (by omega) (by omega)
                (by omega))
            · exact Or.inr (Access.within_mono (w3 a h) (by omega) (by omega) (by omega)
                (by omega))
          | some s3 =>
            obtain ⟨a3, b3⟩ := scalar_op_pos buf _ s3 e3.symm
            simp only at a3 b3
            have w4 := fast_op_log_within buf (29 - (60 - offset) / 2) (by omega) s3
            obtain ⟨a4, b4⟩ := fast_op_pos buf (29 - (60 - offset) / 2) (by omega) s3
            rw [a3, b3, a2, b2, a1, b1] at w4
            simp only at h
            rw [fast_op_log_fst] at h
            simp only [List.mem_append, List.mem_singleton] at h
            rcases h with (((h | h) | h) | h) | h
            · exact Or.inl (Access.within_mono (w1 a h) (by omega) (by omega) (by omega)
                (by omega))
            · exact Or.inl (Access.within_mono (w2 a h) (by omega) (by omega) (by omega)
                (by omega))
            · exact Or.inr (Access.within_mono (w3 a h) (by omega) (by omega) (by omega)
                (by omega))
            · exact Or.inr (Access.within_mono (w4 a h) (by omega) (by omega) (by omega)
                (by omega))
            · subst h
              rw [b4, b3, b2, b1]
              exact Or.inl ⟨by omega, by push_cast; omega⟩

theorem fast_op_simd_log_no_byte_load (buf : Mem) (n : Nat) : ∀ s,
    (fast_op_simd_log buf n s).2.filter Access.isByteLoad = [] := by
  induction n with
  | zero => intro s; rfl
  | succ n ih =>
    intro s
    simp only [fast_op_simd_log, List.filter_cons, Access.isByteLoad, ih]
    rfl

theorem fast_op_pairs_log_no_byte_load (buf : Mem) (n : Nat) : ∀ s,
    (fast_op_pairs_log buf n s).2.filter Access.isByteLoad = [] := by
  induction n with
  | zero => intro s; rfl
  | succ n ih =>
    intro s
    simp only [fast_op_pairs_log, List.filter_cons, Access.isByteLoad, ih]
    rfl

theorem fast_op_log_no_byte_load (buf : Mem) (w : Int) (s : Cursor) :
    (fast_op_log buf w s).2.filter Access.isByteLoad = [] := by
  simp only [fast_op_log, List.filter_append, fast_op_simd_log_no_byte_load,
    fast_op_pairs_log_no_byte_load, List.append_nil]

theorem replace60_simd_log_byte_loads (buf : Mem) (in_ : Int) (outbuf : Mem) (out offset : Int)
    (h0 : 0 ≤ offset) (h60 : offset ≤ 60)
    (h : ∀ i, in_ - 61 ≤ i → i < in_ → i ≠ in_ - 61 + offset → isSym (buf i)) :
    (replace60_simd_log buf in_ outbuf out offset).2.filter Access.isByteLoad
      = if offset % 2 = 1 then
          [Access.load (in_ - 61 + offset + 1) 1, Access.load (in_ - 61 + offset - 1) 1]
        else [] := by
  have esize : (60 - offset).tdiv 2 = (60 - offset) / 2 := Int.tdiv_eq_ediv (by omega) (by omega)
  have emod : offset.tmod 2 = offset % 2 := Int.tmod_eq_emod h0 (by omega)
  obtain ⟨a1, b1⟩ := fast_op_pos buf ((60 - offset) / 2) (by omega) ⟨in_, out, outbuf⟩
  have n1 := fast_op_log_no_byte_load buf ((60 - offset) / 2) ⟨in_, out, outbuf⟩
  simp only at a1 b1
  simp only [replace60_simd_log, esize, emod]
  rw [fast_op_log_fst]
  generalize fast_op buf ((60 - offset) / 2) ⟨in_, out, outbuf⟩ = s1 at a1 b1
  generalize (fast_op_log buf ((60 - offset) / 2) ⟨in_, out, outbuf⟩).2 = l1 at n1
  by_cases hodd : offset % 2 = 0
  · rw [if_neg (by omega), if_neg (by omega)]
    simp only [List.filter_append, n1, fast_op_log_no_byte_load, List.nil_append]
    rfl
  · rw [if_pos (by omega), if_pos (by omega)]
    obtain ⟨s2, e2, a2, b2, -⟩ := Copied_scalar_op buf s1
      (h _ (by rw [a1]; omega) (by rw [a1]; omega) (by rw [a1]; omega))
    obtain ⟨s3, e3, a3, b3, -⟩ := Copied_scalar_op buf ⟨s2.in_ - 1, s2.out, s2.outbuf⟩
      (h _ (by simp only [a2, a1]; omega) (by simp only [a2, a1]; omega)
        (by simp only [a2, a1]; omega))
    simp only [scalar_op_log, e2, e3, List.filter_append, n1, fast_op_log_no_byte_load,
      List.nil_append, List.append_nil]
    rw [a2, a1]
    have i1 : in_ - 2 * ((60 - offset) / 2) - 1 = in_ - 61 + offset + 1 := by omega
    have i2 : in_ - 61 + offset + 1 - 1 - 1 = in_ - 61 + offset - 1 := by omega
    rw [i1, i2]
    rfl

theorem window_getD (buf : Mem) (p : Int) (n q : Nat) (h : q < n) :
    ((List.range n).map fun (i : Nat) => buf (p + i)).getD q 0 = buf (p + q) := by
  rw [List.getD_eq_getElem _ _ (by simpa using h), List.getElem_map, List.getElem_range]

/-- C12: for every phase `off` from 0 to 60, odd or even, and every window of
61 bytes before `in` made of `off` symbols, one byte (the line-break) and
`60 - off` symbols, `replace60_simd(in, out, off)` stores 61 bytes at `out`
and nothing else: the 60 symbols of the window in reverse order, each
complemented by `swmap`, and a line-break. The byte at the line-break
position is never loaded. When `off` is odd, the two symbols next to the
line-break, and they alone, are loaded one byte at a time for the lookup in
`map256`; when `off` is even, no byte is. -/
theorem replace60_simd_window (buf : Mem) (in_ : Int) (outbuf : Mem) (out : Int) (off : Nat)
    (hoff : off ≤ 60)
    (hsym : ∀ i : Nat, i < 61 → i ≠ off → isSym (buf (in_ - 61 + i))) :
    ∃ ob log, replace60_simd_log buf in_ outbuf out off = (some ob, log) ∧
      replace60_simd buf in_ outbuf out off = some ob ∧
      ((List.range 61).map fun (j : Nat) => ob (out + j))
        = ((((List.range 61).map fun (i : Nat) => buf (in_ - 61 + i)).take off ++
            ((List.range 61).map fun (i : Nat) => buf (in_ - 61 + i)).drop (off + 1)).reverse.map
            swmap) ++ [10] ∧
      (∀ j, j < out ∨ out + 61 ≤ j → ob j = outbuf j) ∧
      (∀ lo len, Access.load lo len ∈ log →
        ¬ (lo ≤ in_ - 61 + off ∧ in_ - 61 + off < lo + len)) ∧
      log.filter Access.isByteLoad
        = if off % 2 = 1 then
            [Access.load (in_ - 61 + off + 1) 1, Access.load (in_ - 61 + off - 1) 1]
          else [] := by
  have hsym' : ∀ i, in_ - 61 ≤ i → i < in_ → i ≠ in_ - 61 + (off : Int) → isSym (buf i) := by
    intro i h1 h2 h3
    have := hsym (i - (in_ - 61)).toNat (by omega) (by omega)
    rwa [show in_ - 61 + ((i - (in_ - 61)).toNat : Int) = i by omega] at this
  obtain ⟨ob, e, d⟩ := replace60_simd_spec buf in_ outbuf out off (by omega) (by omega) hsym'
  have efst := replace60_simd_log_fst buf in_ outbuf out off
  have hw := replace60_simd_log_within buf in_ outbuf out off (by omega) (by omega)
  have hb := replace60_simd_log_byte_loads buf in_ outbuf out off (by omega) (by omega) hsym'
  rcases hl : replace60_simd_log buf in_ outbuf out off with ⟨o, log⟩
  rw [hl] at efst hw hb
  simp only at efst hw hb
  rw [e] at efst
  subst efst
  refine ⟨ob, log, rfl, e, ?_, fun j hj => ?_, fun lo len hmem => ?_, ?_⟩
  · -- the 61 bytes stored
    have hlenZ : (((List.range 61).map fun (i : Nat) => buf (in_ - 61 + i)).take off ++
        ((List.range 61).map fun (i : Nat) => buf (in_ - 61 + i)).drop (off + 1)).length = 60 := by
      simp only [List.length_append, List.length_take, List.length_drop, List.length_map,
        List.length_range]
      omega
    rw [← map_range_reverse, hlenZ]
    conv_lhs => rw [show (61 : Nat) = 60 + 1 from rfl, List.range_succ, List.map_append]
    congr 1
    · apply List.map_congr_left
      intro j hj
      have hj := List.mem_range.mp hj
      rw [d]
      rw [if_pos (by omega)]
      congr 1
      by_cases hc : 60 - 1 - j < off
      · rw [List.getD_append _ _ _ _ (by
          simp only [List.length_take, List.length_map, List.length_range]; omega),
          getD_take' _ _ _ hc, window_getD _ _ _ _ (by omega)]
        congr 1
        split_ifs <;> omega
      · rw [List.getD_append_right _ _ _ _ (by
          simp only [List.length_take, List.length_map, List.length_range]; omega),
          getD_drop', window_getD _ _ _ _ (by
            simp only [List.length_take, List.length_map, List.length_range]; omega)]
        simp only [List.length_take, List.length_map, List.length_range]
        congr 1
        split_ifs <;> omega
    · simp only [List.map_cons, List.map_nil]
      rw [d, if_neg (by omega), if_pos (by omega)]
  · rw [d, if_neg (by omega), if_neg (by omega)]
  · intro hc
    rcases hw _ hmem with h | h
    · have h' : in_ - (60 - (off : Int)) ≤ lo ∧ lo + len ≤ in_ := h
      omega
    · have h' : in_ - 61 ≤ lo ∧ lo + len ≤ in_ - (60 - (off : Int)) - 1 := h
      omega
  · rw [hb]
    have : ((off : Int) % 2 = 1) ↔ (off % 2 = 1) := by omega
    simp only [this]

/-- C12 on the window of 59 `A`, a line-break and one `A`, phase 59: the
call returns, and the bytes loaded one at a time are the last byte of the
window and the byte before the line-break. -/
theorem replace60_simd_window_witness :
    ∃ ob log, replace60_simd_log (fun a => if a = 59 then 10 else 65) 61 (fun _ => 0) 0
        ((59 : Nat) : Int) = (some ob, log) ∧
      log.filter Access.isByteLoad = [Access.load 60 1, Access.load 58 1] :=
  let ⟨ob, log, h1, _, _, _, _, h6⟩ :=
    replace60_simd_window (fun a => if a = 59 then 10 else 65) 61 (fun _ => 0) 0 59
      (by decide) (by decide)
  ⟨ob, log, h1, h6⟩

/-! ## The lookup in `map256` through a `char` -/

theorem scalar_op_total (buf : Mem) (s : Cursor) (h : buf (s.in_ - 1) < 128) :
    ∃ t, scalar_op buf s = some t :=
  ⟨⟨s.in_ - 1, s.out + 1, s.outbuf.store s.out (swmap (buf (s.in_ - 1)))⟩, by
    simp [scalar_op, map256_at_toChar h]⟩

theorem replace60_simd_total (buf : Mem) (hbuf : ∀ i, buf i < 128) (in_ : Int) (outbuf : Mem)
    (out offset : Int) : ∃ ob, replace60_simd buf in_ outbuf out offset = some ob := by
  simp only [replace60_simd]
  split_ifs with h
  · obtain ⟨s2, e2⟩ := scalar_op_total buf
      (fast_op buf ((60 - offset).tdiv 2) ⟨in_, out, outbuf⟩) (hbuf _)
    obtain ⟨s3, e3⟩ := scalar_op_total buf ⟨s2.in_ - 1, s2.out, s2.outbuf⟩ (hbuf _)
    rw [e2]
    simp only [Option.bind_eq_bind, Option.some_bind, e3, Option.pure_def]
    exact ⟨_, rfl⟩
  · exact ⟨_, rfl⟩

theorem lines_loop_total (buf : Mem) (hbuf : ∀ i, buf i < 128) (off : Int) (n : Nat) :
    ∀ s, ∃ t, lines_loop buf off n s = some t := by
  induction n with
  | zero => intro s; exact ⟨s, rfl⟩
  | succ n ih =>
    intro s
    obtain ⟨ob, e⟩ := replace60_simd_total buf hbuf s.in_ s.outbuf s.out off
    simp only [lines_loop, e, Option.bind_eq_bind, Option.some_bind]
    exact ih _

theorem pread_lt (file : List Nat) (hfile : ∀ b ∈ file, b < 128) (buf : Mem)
    (hbuf : ∀ i, buf i < 128) (count offset : Nat) : ∀ i, pread file buf count offset i < 128 := by
  intro i
  unfold pread
  split_ifs with h1
  · exact hbuf i
  · show (if 0 ≤ i ∧ i < (count : Int) ∧ offset + i.toNat < file.length then
        file.getD (offset + i.toNat) 0 else buf i) < 128
    split_ifs with h2
    · rw [List.getD_eq_getElem _ _ h2.2.2]
      exact hfile _ (List.getElem_mem _)
    · exact hbuf i

theorem blocks_loop_total (file : List Nat) (hfile : ∀ b ∈ file, b < 128) (r : range)
    (off : Int) (todo : Nat) : ∀ n p, (∀ i, p.buf i < 128) →
      ∃ q, blocks_loop file r off todo n p = some q ∧ ∀ i, q.buf i < 128 := by
  induction todo with
  | zero => intro n p hp; exact ⟨p, rfl, hp⟩
  | succ todo ih =>
    intro n p hp
    have hbs : block_size = 62464 := rfl
    have hb := pread_lt file hfile p.buf hp block_size
      ((r.begin + r.size + 2 ^ 64 - n * block_size % 2 ^ 64) % 2 ^ 64)
    obtain ⟨t, e⟩ := lines_loop_total _ hb off 1024 ⟨block_size, 0, p.outbuf⟩
    simp only [blocks_loop]
    rw [block_loop_eq _ _ 1024 _ _ _ _ (by rw [hbs]; norm_num) (by rw [hbs]; omega), e]
    simp only [Option.map_some', Option.bind_eq_bind, Option.some_bind]
    exact ih _ _ hb

/-- On a file of bytes below 128 `replace` returns, whatever the range. -/
theorem replace_total (file : List Nat) (hfile : ∀ b ∈ file, b < 128) (r : range) :
    ∃ out, replace file r = some out := by
  obtain ⟨q, e1, hq⟩ := blocks_loop_total file hfile r ((60 - r.size % 61 : Nat) : Int)
    (r.size / block_size) 1 ⟨fun _ => 0, fun _ => 0, []⟩ (fun _ => Nat.zero_lt_succ _)
  obtain ⟨t, e2⟩ := lines_loop_total _
    (pread_lt file hfile q.buf hq (r.size - r.size / block_size * block_size) r.begin)
    ((60 - r.size % 61 : Nat) : Int) ((r.size - r.size / block_size * block_size) / line_size)
    ⟨((r.size - r.size / block_size * block_size : Nat) : Int), 0, q.outbuf⟩
  simp only [replace, e1, Option.bind_eq_bind, Option.some_bind, e2, Option.pure_def]
  exact ⟨_, rfl⟩

theorem replace_last (file : List Nat) (r : range) (out : List Nat)
    (h : replace file r = some out) : out.getLast? = some 10 := by
  simp only [replace, Option.bind_eq_bind, Option.pure_def] at h
  cases hb : blocks_loop file r ((60 - r.size % 61 : Nat) : Int) (r.size / block_size) 1
      ⟨fun _ => 0, fun _ => 0, []⟩ with
  | none => rw [hb] at h; simp at h
  | some p =>
    rw [hb, Option.some_bind] at h
    cases hl : lines_loop (pread file p.buf (r.size - r.size / block_size * block_size) r.begin)
        ((60 - r.size % 61 : Nat) : Int)
        ((r.size - r.size / block_size * block_size) / line_size)
        ⟨((r.size - r.size / block_size * block_size : Nat) : Int), 0, p.outbuf⟩ with
    | none => rw [hl] at h; simp at h
    | some s =>
      rw [hl, Option.some_bind, Option.some.injEq] at h
      subst h
      simp

/-! ## The bytes written, whatever the lookup reads -/

theorem map256_read_of (beyond : Nat → Nat) (c : Int) (v : Nat) (h : map256_at c = some v) :
    map256_read beyond c = v := by
  unfold map256_at at h
  unfold map256_read
  obtain ⟨hi, e⟩ := List.getElem?_eq_some_iff.mp h
  have hl : map256.length = 256 := rfl
  simp only
  rw [if_pos (by omega), List.getD_eq_getElem _ _ hi, e]

theorem scalar_op_read_of (beyond : Nat → Nat) (buf : Mem) (s t : Cursor)
    (h : scalar_op buf s = some t) : scalar_op_read beyond buf s = t := by
  simp only [scalar_op, Option.bind_eq_bind, Option.pure_def] at h
  cases hv : map256_at (toChar (buf (s.in_ - 1))) with
  | none => rw [hv] at h; simp at h
  | some v =>
    rw [hv, Option.some_bind, Option.some.injEq] at h
    simp only [scalar_op_read, map256_read_of beyond _ _ hv]
    exact h

theorem replace60_simd_read_of (beyond : Nat → Nat) (buf : Mem) (in_ : Int) (outbuf : Mem)
    (out offset : Int) (ob : Mem) (h : replace60_simd buf in_ outbuf out offset = some ob) :
    replace60_simd_read beyond buf in_ outbuf out offset = ob := by
  simp only [replace60_simd, Option.bind_eq_bind, Option.pure_def] at h
  simp only [replace60_simd_read]
  split_ifs at h ⊢ with ho
  · cases h2 : scalar_op buf (fast_op buf ((60 - offset).tdiv 2) ⟨in_, out, outbuf⟩) with
    | none => rw [h2] at h; simp at h
    | some s2 =>
      rw [h2, Option.some_bind] at h
      cases h3 : scalar_op buf ⟨s2.in_ - 1, s2.out, s2.outbuf⟩ with
      | none => rw [h3] at h; simp at h
      | some s3 =>
        rw [h3] at h
        simp only [Option.some_bind, Option.some.injEq] at h
        rw [scalar_op_read_of beyond _ _ _ h2, scalar_op_read_of beyond _ _ _ h3]
        exact h
  · simpa using h

theorem lines_loop_read_of (beyond : Nat → Nat) (buf : Mem) (off : Int) (n : Nat) :
    ∀ s t, lines_loop buf off n s = some t → lines_loop_read beyond buf off n s = t := by
  induction n with
  | zero => intro s t h; simpa [lines_loop, lines_loop_read] using h
  | succ n ih =>
    intro s t h
    simp only [lines_loop, Option.bind_eq_bind] at h
    cases hr : replace60_simd buf s.in_ s.outbuf s.out off with
    | none => rw [hr] at h; simp at h
    | some ob =>
      rw [hr, Option.some_bind] at h
      simp only [lines_loop_read, replace60_simd_read_of beyond _ _ _ _ _ _ hr]
      exact ih _ _ h

theorem block_loop_read_eq (beyond : Nat → Nat) (buf : Mem) (off : Int) (k : Nat) :
    ∀ (fuel : Nat) (it oit : Int) (ob : Mem), oit + 61 * k = block_size → k < fuel →
    block_loop_read beyond buf off fuel it oit ob
      = some (lines_loop_read beyond buf off k ⟨it, oit, ob⟩).outbuf := by
  induction k with
  | zero =>
    intro fuel it oit ob h hf
    obtain ⟨f, rfl⟩ : ∃ f, fuel = f + 1 := ⟨fuel - 1, by omega⟩
    simp only [block_loop_read, lines_loop_read]
    rw [if_neg (by simp at h; omega)]
  | succ k ih =>
    intro fuel it oit ob h hf
    obtain ⟨f, rfl⟩ : ∃ f, fuel = f + 1 := ⟨fuel - 1, by omega⟩
    simp only [block_loop_read, lines_loop_read]
    rw [if_pos (by push_cast at h; omega)]
    exact ih f _ _ _ (by simp only [line_size]; push_cast at h ⊢; omega) (by omega)

theorem block_loop_read_block (beyond : Nat → Nat) (buf : Mem) (off : Int) (ob : Mem) :
    block_loop_read beyond buf off (block_size + 1) block_size 0 ob
      = some (lines_loop_read beyond buf off 1024 ⟨block_size, 0, ob⟩).outbuf :=
  block_loop_read_eq beyond buf off 1024 _ _ _ _ (by rw [block_size_eq]; norm_num)
    (by rw [block_size_eq]; omega)

/-- Every round of the block loop makes one call of `write`, of `block_size`
bytes. -/
theorem blocks_loop_read_calls (beyond : Nat → Nat) (file : List Nat) (r : range) (off : Int)
    (todo : Nat) : ∀ n p, ∃ q blocks, blocks_loop_read beyond file r off todo n p = some q ∧
      q.calls = p.calls ++ blocks ∧ blocks.length = todo ∧
      ∀ b ∈ blocks, b.length = block_size := by
  induction todo with
  | zero => intro n p; exact ⟨p, [], rfl, by simp, rfl, by simp⟩
  | succ todo ih =>
    intro n p
    have key : ∀ ob : Mem, ∃ q blocks, blocks_loop_read beyond file r off todo (n + 1)
        ⟨pread file p.buf block_size
          ((r.begin + r.size + 2 ^ 64 - n * block_size % 2 ^ 64) % 2 ^ 64), ob,
          p.calls ++ [ob.read block_size]⟩ = some q ∧
        q.calls = p.calls ++ blocks ∧ blocks.length = todo + 1 ∧
        ∀ b ∈ blocks, b.length = block_size := by
      intro ob
      obtain ⟨q, blocks, e, hc, hl, hb⟩ := ih (n + 1)
        ⟨pread file p.buf block_size
          ((r.begin + r.size + 2 ^ 64 - n * block_size % 2 ^ 64) % 2 ^ 64), ob,
          p.calls ++ [ob.read block_size]⟩
      refine ⟨q, ob.read block_size :: blocks, e, ?_, by rw [List.length_cons, hl], ?_⟩
      · rw [hc, List.append_assoc]; rfl
      · intro b hb1
        rcases List.mem_cons.mp hb1 with h | hb1
        · rw [h]; exact Mem.length_read _ _
        · exact hb b hb1
    simp only [blocks_loop_read]
    rw [block_loop_read_block]
    exact key _

/-- Where `replace` returns, so does the block loop read by `map256_read`,
with the same buffers and the same bytes written. -/
theorem blocks_loop_read_of (beyond : Nat → Nat) (file : List Nat) (r : range) (off : Int)
    (todo : Nat) : ∀ n p q (w : Writes), blocks_loop file r off todo n p = some q →
      w.buf = p.buf → w.outbuf = p.outbuf → w.calls.flatten = p.written →
      ∃ v, blocks_loop_read beyond file r off todo n w = some v ∧
        v.buf = q.buf ∧ v.outbuf = q.outbuf ∧ v.calls.flatten = q.written := by
  induction todo with
  | zero =>
    intro n p q w h h1 h2 h3
    simp only [blocks_loop, Option.some.injEq] at h
    subst h
    exact ⟨w, rfl, h1, h2, h3⟩
  | succ todo ih =>
    intro n p q w h h1 h2 h3
    simp only [blocks_loop, Option.bind_eq_bind] at h
    cases hb : block_loop (pread file p.buf block_size
        ((r.begin + r.size + 2 ^ 64 - n * block_size % 2 ^ 64) % 2 ^ 64)) off (block_size + 1)
        block_size 0 p.outbuf with
    | none => rw [hb] at h; simp at h
    | some ob =>
      rw [hb, Option.some_bind] at h
      rw [block_loop_eq _ _ 1024 _ _ _ _ (by rw [block_size_eq]; norm_num)
        (by rw [block_size_eq]; omega)] at hb
      cases hl : lines_loop (pread file p.buf block_size
          ((r.begin + r.size + 2 ^ 64 - n * block_size % 2 ^ 64) % 2 ^ 64)) off 1024
          ⟨block_size, 0, p.outbuf⟩ with
      | none => rw [hl] at hb; simp at hb
      | some t =>
        rw [hl, Option.map_some', Option.some.injEq] at hb
        have e := lines_loop_read_of beyond _ _ _ _ _ hl
        simp only [blocks_loop_read]
        rw [h1, h2, block_loop_read_block, e, hb]
        exact ih _ _ _ _ h rfl rfl
          (by rw [List.flatten_append, h3, List.flatten_cons, List.flatten_nil, List.append_nil])

theorem replace_read_of (beyond : Nat → Nat) (file : List Nat) (r : range) (out : List Nat)
    (h : replace file r = some out) :
    ∃ w, replace_read beyond file r = some w ∧ w.flatten = out := by
  simp only [replace, Option.bind_eq_bind, Option.pure_def] at h
  cases hb : blocks_loop file r ((60 - r.size % 61 : Nat) : Int) (r.size / block_size) 1
      ⟨fun _ => 0, fun _ => 0, []⟩ with
  | none => rw [hb] at h; simp at h
  | some p =>
    rw [hb, Option.some_bind] at h
    cases hl : lines_loop (pread file p.buf (r.size - r.size / block_size * block_size) r.begin)
        ((60 - r.size % 61 : Nat) : Int)
        ((r.size - r.size / block_size * block_size) / line_size)
        ⟨((r.size - r.size / block_size * block_size : Nat) : Int), 0, p.outbuf⟩ with
    | none => rw [hl] at h; simp at h
    | some s =>
      rw [hl, Option.some_bind, Option.some.injEq] at h
      obtain ⟨v, e, v1, v2, v3⟩ := blocks_loop_read_of beyond file r
        ((60 - r.size % 61 : Nat) : Int) (r.size / block_size) 1 _ _
        ⟨fun _ => 0, fun _ => 0, []⟩ hb rfl rfl rfl
      have e2 := lines_loop_read_of beyond _ _ _ _ _ hl
      simp only [replace_read, e, Option.bind_eq_bind, Option.some_bind, Option.pure_def, v1, v2,
        e2]
      refine ⟨_, rfl, ?_⟩
      rw [← h]
      simp [v3]

/-- C17: for every file and every range of size `L`, whatever the bytes,
and whatever byte a lookup outside `map256` reads, `replace` returns after
`L / block_size` calls of `write` of `block_size` bytes each, one call of
`L mod block_size` bytes and one call of the single byte line-break: `L + 1`
bytes in all, the last one a line-break. Where no lookup leaves the table
these are the bytes that `replace` gives, and none does in a file of bytes
below 128. -/
theorem replace_byte_count (beyond : Nat → Nat) (file : List Nat) (r : range) :
    ∃ blocks tl, replace_read beyond file r = some (blocks ++ [tl, [10]]) ∧
      blocks.length = r.size / block_size ∧ (∀ b ∈ blocks, b.length = block_size) ∧
      tl.length = r.size % block_size ∧
      (blocks ++ [tl, [10]]).flatten.length = r.size + 1 ∧
      (blocks ++ [tl, [10]]).flatten.getLast? = some 10 ∧
      (∀ out, replace file r = some out → out = (blocks ++ [tl, [10]]).flatten) ∧
      ((∀ b ∈ file, b < 128) → replace file r = some (blocks ++ [tl, [10]]).flatten) := by
  obtain ⟨q, blocks, e, hc, hl, hb⟩ := blocks_loop_read_calls beyond file r
    ((60 - r.size % 61 : Nat) : Int) (r.size / block_size) 1 ⟨fun _ => 0, fun _ => 0, []⟩
  have ht : r.size - r.size / block_size * block_size = r.size % block_size := by
    have := Nat.div_add_mod r.size block_size
    rw [Nat.mul_comm] at this
    omega
  have hsum : (blocks.map List.length).sum = r.size / block_size * block_size := by
    rw [← hl]
    clear e hc hl
    induction blocks with
    | nil => simp
    | cons b l ih =>
      simp only [List.map_cons, List.sum_cons, List.length_cons]
      rw [ih (fun x hx => hb x (List.mem_cons_of_mem _ hx)), hb b (List.mem_cons_self _ _)]
      ring
  have er : replace_read beyond file r = some (blocks ++ [(rest_loop
      (pread file q.buf (r.size - r.size / block_size * block_size) r.begin)
      (r.size - r.size / block_size * block_size
        - (r.size - r.size / block_size * block_size) / line_size * line_size)
      (lines_loop_read beyond
        (pread file q.buf (r.size - r.size / block_size * block_size) r.begin)
        ((60 - r.size % 61 : Nat) : Int)
        ((r.size - r.size / block_size * block_size) / line_size)
        ⟨((r.size - r.size / block_size * block_size : Nat) : Int), 0, q.outbuf⟩)).outbuf.read
          (r.size - r.size / block_size * block_size), [10]]) := by
    simp only [replace_read, e, Option.bind_eq_bind, Option.some_bind, Option.pure_def, hc,
      List.nil_append]
  have hof : ∀ out, replace file r = some out → out = (blocks ++ [(rest_loop
      (pread file q.buf (r.size - r.size / block_size * block_size) r.begin)
      (r.size - r.size / block_size * block_size
        - (r.size - r.size / block_size * block_size) / line_size * line_size)
      (lines_loop_read beyond
        (pread file q.buf (r.size - r.size / block_size * block_size) r.begin)
        ((60 - r.size % 61 : Nat) : Int)
        ((r.size - r.size / block_size * block_size) / line_size)
        ⟨((r.size - r.size / block_size * block_size : Nat) : Int), 0, q.outbuf⟩)).outbuf.read
          (r.size - r.size / block_size * block_size), [10]]).flatten := by
    intro out ho
    obtain ⟨w, e1, e2⟩ := replace_read_of beyond file r out ho
    rw [er, Option.some.injEq] at e1
    rw [← e2, ← e1]
  refine ⟨blocks, _, er, hl, hb, by rw [Mem.length_read, ht], ?_, ?_, hof, ?_⟩
  · simp only [List.length_flatten, List.map_append, List.sum_append, hsum, List.map_cons,
      List.map_nil, List.sum_cons, List.sum_nil, Mem.length_read, List.length_cons,
      List.length_nil]
    have := Nat.div_mul_le_self r.size block_size
    omega
  · simp
  · intro hfile
    obtain ⟨out, ho⟩ := replace_total file hfile r
    rw [ho, hof out ho]

/-- C17 on the body of 59 `A`, the byte `0x80`, a line-break and `A` (62
bytes, odd phase 59), where the lookup for `0x80` leaves the table and reads
the byte 0: one call of `write` sends 62 bytes, the byte read among them, and
one sends the line-break; and on the body `ACGT`, where `replace` returns
those bytes. -/
theorem replace_byte_count_witness :
    replace_read (fun _ => 0) (List.replicate 59 65 ++ [128, 10, 65]) ⟨0, 62⟩
      = some [84 :: 0 :: (List.replicate 58 84 ++ [10, 84]), [10]] ∧
    (∃ blocks tl, replace_read (fun _ => 0) (List.replicate 59 65 ++ [128, 10, 65]) ⟨0, 62⟩
        = some (blocks ++ [tl, [10]]) ∧
      blocks.length = 0 ∧ tl.length = 62 ∧
      (blocks ++ [tl, [10]]).flatten.length = 63 ∧
      (blocks ++ [tl, [10]]).flatten.getLast? = some 10) ∧
    (∃ blocks tl, replace_read (fun _ => 0) [65, 67, 71, 84] ⟨0, 4⟩
        = some (blocks ++ [tl, [10]]) ∧
      replace [65, 67, 71, 84] ⟨0, 4⟩ = some (blocks ++ [tl, [10]]).flatten) :=
  ⟨by decide,
    let ⟨blocks, tl, h1, h2, _, h4, h5, h6, _, _⟩ :=
      replace_byte_count (fun _ => 0) (List.replicate 59 65 ++ [128, 10, 65]) ⟨0, 62⟩
    ⟨blocks, tl, h1, h2, h4, h5, h6⟩,
    let ⟨blocks, tl, h1, _, _, _, _, _, _, h8⟩ :=
      replace_byte_count (fun _ => 0) [65, 67, 71, 84] ⟨0, 4⟩
    ⟨blocks, tl, h1, h8 (by decide)⟩⟩

/-! ## The index of the lookup -/

/-- C18 fails at the byte `0x80`: read through a `char` it is -128, the index
of the lookup in `map256` is `2 ^ 64 - 128` as `size_t`, outside the 256
entries; so it is for every byte from 128 to 255, while for a byte below 128
the index is the byte and the lookup gives `swmap` of it. In the odd phase
59, with `0x80` before the line-break of the window, `replace60_simd` makes
that lookup. -/
theorem map256_lookup_out_of_table :
    toChar 128 = -128 ∧ ((toChar 128) % 2 ^ 64).toNat = 2 ^ 64 - 128 ∧
    map256_at (toChar 128) = none ∧
    (∀ b, b < 256 → (b < 128 → map256_at (toChar b) = some (swmap b)) ∧
      (128 ≤ b → map256_at (toChar b) = none)) ∧
    scalar_op (fun a => if a = 58 then 128 else if a = 59 then 10 else 65)
      ⟨59, 1, fun _ => 0⟩ = none ∧
    replace60_simd (fun a => if a = 58 then 128 else if a = 59 then 10 else 65) 61
      (fun _ => 0) 0 59 = none := by
  refine ⟨by decide, by decide, by decide, by decide,
    Option.isNone_iff_eq_none.mp (by decide), Option.isNone_iff_eq_none.mp (by decide)⟩

end ReverseComplement
